import Mathlib

/-!
Verification of the toolfront schema/endpoint pattern-search engine.

The engine (`Database._scan_tables_regex`, `_scan_tables_bm25`,
`_scan_tables_jaro_winkler`, `_scan_tables_tf_idf` and the `SearchMode`
enum in `toolfront/models/database.py`) is exercised by the unit tests and
called from `toolfront/tools.py`, but its own file is not part of the
source snapshot; those definitions are therefore modelled from the
specification (each such definition carries a doc comment starting with
`Modelled from the spec:`).  The error-mapping layer of
`toolfront/tools.py` (`search_tables`, `search_endpoints`) is embedded
directly from the source.

Strings are modelled as Lean `String`/`List Char`; scores are exact
rationals (`ℚ`); Python's stable descending sort by score is modelled as a
sort by the strict total key (score descending, original index ascending),
which is observationally identical for score projections.
-/

set_option linter.unusedVariables false

namespace Toolfront

-- Batteries marks the rational arithmetic operations irreducible; concrete
-- score computations in witnesses need them to reduce.
attribute [local semireducible] Rat.mul Rat.inv Rat.add Rat.sub

/-! ## Generic list utilities -/

/-- The ascending list `[a, a+1, ..., a+n-1]`. -/
def natSpan : Nat → Nat → List Nat
  | _, 0 => []
  | a, n + 1 => a :: natSpan (a + 1) n

theorem mem_natSpan {k : Nat} : ∀ {n a : Nat}, k ∈ natSpan a n ↔ a ≤ k ∧ k < a + n := by
  intro n
  induction n with
  | zero => intro a; simp [natSpan]
  | succ m ih =>
    intro a
    simp only [natSpan, List.mem_cons, ih]
    omega

/-- Does `needle` occur at the head of `hay`? -/
def leadMatches : List Char → List Char → Bool
  | [], _ => true
  | _ :: _, [] => false
  | a :: as, b :: bs => a == b && leadMatches as bs

theorem leadMatches_iff {n : List Char} : ∀ {h : List Char},
    leadMatches n h = true ↔ ∃ post, h = n ++ post := by
  induction n with
  | nil => intro h; simp [leadMatches]
  | cons a as ih =>
    intro h
    cases h with
    | nil => simp [leadMatches]
    | cons b bs =>
      simp only [leadMatches, Bool.and_eq_true, beq_iff_eq, ih, List.cons_append,
        List.cons.injEq]
      constructor
      · rintro ⟨rfl, post, rfl⟩; exact ⟨post, rfl, rfl⟩
      · rintro ⟨post, rfl, rfl⟩; exact ⟨rfl, post, rfl⟩

/-- Substring test, modelling Python's `in` on strings. -/
def hasSubB (needle hay : List Char) : Bool :=
  hay.tails.any (fun t => leadMatches needle t)

/-- `needle` occurs contiguously inside `hay`. -/
def ContainsSub (needle hay : List Char) : Prop :=
  ∃ pre post, hay = pre ++ needle ++ post

theorem hasSubB_iff {n h : List Char} : hasSubB n h = true ↔ ContainsSub n h := by
  simp only [hasSubB, List.any_eq_true, List.mem_tails]
  constructor
  · rintro ⟨t, ⟨pre, rfl⟩, ht⟩
    obtain ⟨post, rfl⟩ := leadMatches_iff.mp ht
    exact ⟨pre, post, by simp⟩
  · rintro ⟨pre, post, rfl⟩
    refine ⟨n ++ post, ⟨pre, by simp⟩, ?_⟩
    exact leadMatches_iff.mpr ⟨post, rfl⟩

/-! ## A sort by a boolean comparison, with permutation and sortedness lemmas -/

/-- Insert `x` into `l` before the first element `y` with `le x y`. -/
def insertOrd (le : α → α → Bool) (x : α) : List α → List α
  | [] => [x]
  | y :: ys => if le x y then x :: y :: ys else y :: insertOrd le x ys

/-- Insertion sort by the comparison `le`. -/
def sortOrd (le : α → α → Bool) : List α → List α
  | [] => []
  | x :: xs => insertOrd le x (sortOrd le xs)

theorem insertOrd_perm (le : α → α → Bool) (x : α) :
    ∀ l : List α, List.Perm (insertOrd le x l) (x :: l) := by
  intro l
  induction l with
  | nil => simp [insertOrd]
  | cons y ys ih =>
    by_cases h : le x y
    · simp [insertOrd, h]
    · simp only [insertOrd, h, if_neg, Bool.not_eq_true]
      exact (ih.cons y).trans (List.Perm.swap x y ys)

theorem sortOrd_perm (le : α → α → Bool) : ∀ l : List α, List.Perm (sortOrd le l) l := by
  intro l
  induction l with
  | nil => simp [sortOrd]
  | cons x xs ih =>
    exact (insertOrd_perm le x (sortOrd le xs)).trans (ih.cons x)

theorem mem_insertOrd (le : α → α → Bool) (x : α) (l : List α) {z : α} :
    z ∈ insertOrd le x l ↔ z = x ∨ z ∈ l :=
  ((insertOrd_perm le x l).mem_iff).trans List.mem_cons

theorem insertOrd_pairwise (le : α → α → Bool)
    (htot : ∀ a b, le a b = false → le b a = true)
    (htrans : ∀ a b c, le a b = true → le b c = true → le a c = true) (x : α) :
    ∀ l : List α, l.Pairwise (fun a b => le a b = true) →
      (insertOrd le x l).Pairwise (fun a b => le a b = true) := by
  intro l
  induction l with
  | nil => intro _; simp [insertOrd]
  | cons y ys ih =>
    intro hp
    rw [List.pairwise_cons] at hp
    by_cases h : le x y
    · rw [insertOrd, if_pos h, List.pairwise_cons]
      refine ⟨?_, List.pairwise_cons.mpr hp⟩
      intro z hz
      cases List.mem_cons.mp hz with
      | inl hzy => exact hzy ▸ h
      | inr hzys => exact htrans x y z h (hp.1 z hzys)
    · rw [insertOrd, if_neg (by simpa using h), List.pairwise_cons]
      constructor
      · intro z hz
        cases (mem_insertOrd le x ys).mp hz with
        | inl hzx => exact hzx ▸ htot x y (by simpa using h)
        | inr hzys => exact hp.1 z hzys
      · exact ih hp.2

theorem sortOrd_pairwise (le : α → α → Bool)
    (htot : ∀ a b, le a b = false → le b a = true)
    (htrans : ∀ a b c, le a b = true → le b c = true → le a c = true) :
    ∀ l : List α, (sortOrd le l).Pairwise (fun a b => le a b = true) := by
  intro l
  induction l with
  | nil => simp [sortOrd]
  | cons x xs ih => exact insertOrd_pairwise le htot htrans x _ ih

theorem sortOrd_eq_of_pairwise (le : α → α → Bool) :
    ∀ l : List α, l.Pairwise (fun a b => le a b = true) → sortOrd le l = l := by
  intro l
  induction l with
  | nil => intro _; rfl
  | cons x xs ih =>
    intro hp
    rw [List.pairwise_cons] at hp
    rw [sortOrd, ih hp.2]
    cases xs with
    | nil => rfl
    | cons y ys => rw [insertOrd, if_pos (hp.1 y (by simp))]

/-! ## Lists of naturals: strictly increasing and bounded -/

theorem nodup_bounded_length_le {l : List Nat} {n : Nat}
    (hd : l.Nodup) (hb : ∀ x ∈ l, x < n) : l.length ≤ n := by
  have hsub : l ⊆ List.range n := fun x hx => List.mem_range.mpr (hb x hx)
  have := (hd.subperm hsub).length_le
  simpa using this

theorem pairwise_lt_bounded_eq_range {l : List Nat} {n : Nat}
    (hp : l.Pairwise (· < ·)) (hb : ∀ x ∈ l, x < n) (hl : l.length = n) :
    l = List.range n := by
  have hd : l.Nodup := hp.imp Nat.ne_of_lt
  have hsub : l ⊆ List.range n := fun x hx => List.mem_range.mpr (hb x hx)
  have hperm : List.Perm l (List.range n) := by
    refine (hd.subperm hsub).perm_of_length_le ?_
    simp [hl]
  have hsl : l.Pairwise (· ≤ ·) := hp.imp Nat.le_of_lt
  have hsr : (List.range n).Pairwise (· ≤ ·) :=
    (List.pairwise_lt_range n).imp Nat.le_of_lt
  exact List.eq_of_perm_of_sorted hperm hsl hsr

/-! ## Sums of nonnegative rationals -/

theorem single_le_sumQ {l : List ℚ} (hn : ∀ x ∈ l, 0 ≤ x) {x : ℚ} (hx : x ∈ l) :
    x ≤ l.sum := by
  induction l with
  | nil => cases hx
  | cons y ys ih =>
    rw [List.sum_cons]
    cases List.mem_cons.mp hx with
    | inl h =>
      subst h
      have : 0 ≤ ys.sum := List.sum_nonneg (fun z hz => hn z (by simp [hz]))
      linarith
    | inr h =>
      have hy : 0 ≤ y := hn y (by simp)
      have := ih (fun z hz => hn z (by simp [hz])) h
      linarith

theorem sumQ_eq_zero_iff {l : List ℚ} (hn : ∀ x ∈ l, 0 ≤ x) :
    l.sum = 0 ↔ ∀ x ∈ l, x = 0 := by
  induction l with
  | nil => simp
  | cons y ys ih =>
    have hy : 0 ≤ y := hn y (by simp)
    have hys : 0 ≤ ys.sum := List.sum_nonneg (fun z hz => hn z (by simp [hz]))
    rw [List.sum_cons]
    constructor
    · intro h
      have hy0 : y = 0 := by linarith
      have hs0 : ys.sum = 0 := by linarith
      intro x hx
      cases List.mem_cons.mp hx with
      | inl hxy => exact hxy ▸ hy0
      | inr hxys => exact ((ih (fun z hz => hn z (by simp [hz]))).mp hs0) x hxys
    · intro h
      have hy0 : y = 0 := h y (by simp)
      have : ys.sum = 0 :=
        (ih (fun z hz => hn z (by simp [hz]))).mpr (fun x hx => h x (by simp [hx]))
      rw [hy0, this, add_zero]

/-! ## Regular expressions: syntax, declarative semantics, derivative matcher

Modelled from the spec: the spec's regex mode compiles the pattern as a
case-insensitive regular expression and keeps candidates on which the
expression finds a match anywhere (unanchored search).  The regex
language modelled here is the core subset (literals, `.`, `*`, `|`,
grouping); unsupported metacharacters make compilation fail, as does any
ill-formed pattern such as an unbalanced parenthesis or a dangling `*`. -/

inductive Regex where
  | emp
  | eps
  | char (c : Char)
  | any
  | alt (r1 r2 : Regex)
  | cat (r1 r2 : Regex)
  | star (r : Regex)
deriving DecidableEq

/-- Declarative matching semantics of a regex against a character list. -/
inductive RMatch : Regex → List Char → Prop where
  | eps : RMatch .eps []
  | char (c : Char) : RMatch (.char c) [c]
  | any (c : Char) : RMatch .any [c]
  | altL {r1 r2 s} : RMatch r1 s → RMatch (.alt r1 r2) s
  | altR {r1 r2 s} : RMatch r2 s → RMatch (.alt r1 r2) s
  | cat {r1 r2 s1 s2} : RMatch r1 s1 → RMatch r2 s2 → RMatch (.cat r1 r2) (s1 ++ s2)
  | starNil {r} : RMatch (.star r) []
  | starCons {r s1 s2} : RMatch r s1 → RMatch (.star r) s2 → RMatch (.star r) (s1 ++ s2)

theorem rmatch_emp {s : List Char} : ¬ RMatch .emp s := fun h => nomatch h

theorem rmatch_eps_iff {s : List Char} : RMatch .eps s ↔ s = [] := by
  constructor
  · intro h; cases h; rfl
  · rintro rfl; exact .eps

theorem rmatch_char_iff {a : Char} {s : List Char} : RMatch (.char a) s ↔ s = [a] := by
  constructor
  · intro h; cases h; rfl
  · rintro rfl; exact .char a

theorem rmatch_any_iff {s : List Char} : RMatch .any s ↔ ∃ c, s = [c] := by
  constructor
  · intro h; cases h with | any c => exact ⟨c, rfl⟩
  · rintro ⟨c, rfl⟩; exact .any c

theorem rmatch_alt_iff {r1 r2 : Regex} {s : List Char} :
    RMatch (.alt r1 r2) s ↔ RMatch r1 s ∨ RMatch r2 s := by
  constructor
  · intro h
    cases h with
    | altL h => exact Or.inl h
    | altR h => exact Or.inr h
  · rintro (h | h)
    · exact .altL h
    · exact .altR h

theorem rmatch_cat_iff {r1 r2 : Regex} {s : List Char} :
    RMatch (.cat r1 r2) s ↔ ∃ s1 s2, s = s1 ++ s2 ∧ RMatch r1 s1 ∧ RMatch r2 s2 := by
  constructor
  · intro h
    cases h with
    | cat h1 h2 => exact ⟨_, _, rfl, h1, h2⟩
  · rintro ⟨s1, s2, rfl, h1, h2⟩
    exact .cat h1 h2

theorem rmatch_star_elim : ∀ {q : Regex} {u : List Char}, RMatch q u → ∀ {r : Regex},
    q = .star r →
    u = [] ∨ ∃ s1 s2, u = s1 ++ s2 ∧ s1 ≠ [] ∧ RMatch r s1 ∧ RMatch (.star r) s2 := by
  intro q u h
  induction h with
  | eps => intro r hq; exact absurd hq (by simp)
  | char c => intro r hq; exact absurd hq (by simp)
  | any c => intro r hq; exact absurd hq (by simp)
  | altL h ih => intro r hq; exact absurd hq (by simp)
  | altR h ih => intro r hq; exact absurd hq (by simp)
  | cat h1 h2 ih1 ih2 => intro r hq; exact absurd hq (by simp)
  | starNil => intro r hq; exact Or.inl rfl
  | starCons h1 h2 ih1 ih2 =>
    intro r hq
    injection hq with hr
    subst hr
    rename_i s1 s2
    by_cases hs1 : s1 = []
    · subst hs1
      simpa using ih2 rfl
    · exact Or.inr ⟨s1, s2, rfl, hs1, h1, h2⟩

theorem rmatch_star_cons {r : Regex} {c : Char} {s : List Char}
    (h : RMatch (.star r) (c :: s)) :
    ∃ s1 s2, s = s1 ++ s2 ∧ RMatch r (c :: s1) ∧ RMatch (.star r) s2 := by
  rcases rmatch_star_elim h rfl with h0 | ⟨s1, s2, heq, hne, h1, h2⟩
  · exact absurd h0 (by simp)
  · cases s1 with
    | nil => exact absurd rfl hne
    | cons a s1 =>
      rw [List.cons_append] at heq
      injection heq with hac htail
      subst hac
      exact ⟨s1, s2, htail, h1, h2⟩

/-- Can the regex match the empty word? -/
def nullable : Regex → Bool
  | .emp => false
  | .eps => true
  | .char _ => false
  | .any => false
  | .alt r1 r2 => nullable r1 || nullable r2
  | .cat r1 r2 => nullable r1 && nullable r2
  | .star _ => true

theorem nullable_iff : ∀ r : Regex, nullable r = true ↔ RMatch r [] := by
  intro r
  induction r with
  | emp => simpa [nullable] using rmatch_emp
  | eps => simp [nullable, rmatch_eps_iff]
  | char c => simp [nullable, rmatch_char_iff]
  | any => simp [nullable, rmatch_any_iff]
  | alt r1 r2 ih1 ih2 => simp [nullable, rmatch_alt_iff, ih1, ih2]
  | cat r1 r2 ih1 ih2 =>
    simp only [nullable, Bool.and_eq_true, ih1, ih2, rmatch_cat_iff]
    constructor
    · rintro ⟨h1, h2⟩; exact ⟨[], [], rfl, h1, h2⟩
    · rintro ⟨s1, s2, heq, h1, h2⟩
      rcases List.append_eq_nil.mp heq.symm with ⟨rfl, rfl⟩
      exact ⟨h1, h2⟩
  | star r ih =>
    simp only [nullable, true_iff]
    exact .starNil

/-- Brzozowski derivative of a regex with respect to a character. -/
def deriv (c : Char) : Regex → Regex
  | .emp => .emp
  | .eps => .emp
  | .char a => if c = a then .eps else .emp
  | .any => .eps
  | .alt r1 r2 => .alt (deriv c r1) (deriv c r2)
  | .cat r1 r2 =>
    if nullable r1 then .alt (.cat (deriv c r1) r2) (deriv c r2)
    else .cat (deriv c r1) r2
  | .star r => .cat (deriv c r) (.star r)

theorem deriv_iff (c : Char) : ∀ (r : Regex) (s : List Char),
    RMatch (deriv c r) s ↔ RMatch r (c :: s) := by
  intro r
  induction r with
  | emp =>
    intro s
    simp only [deriv]
    exact ⟨fun h => absurd h rmatch_emp, fun h => absurd h rmatch_emp⟩
  | eps =>
    intro s
    simp [deriv, rmatch_eps_iff, iff_comm]
    exact rmatch_emp
  | char a =>
    intro s
    by_cases hca : c = a
    · subst hca
      simp [deriv, rmatch_eps_iff, rmatch_char_iff]
    · simp only [deriv, if_neg hca, rmatch_char_iff, List.cons.injEq]
      constructor
      · intro h; exact absurd h rmatch_emp
      · rintro ⟨rfl, -⟩; exact absurd rfl hca
  | any =>
    intro s
    simp [deriv, rmatch_eps_iff, rmatch_any_iff]
  | alt r1 r2 ih1 ih2 =>
    intro s
    simp [deriv, rmatch_alt_iff, ih1, ih2]
  | cat r1 r2 ih1 ih2 =>
    intro s
    by_cases hn : nullable r1
    · rw [deriv, if_pos hn]
      rw [rmatch_alt_iff, rmatch_cat_iff, rmatch_cat_iff]
      constructor
      · rintro (⟨s1, s2, rfl, h1, h2⟩ | h2)
        · exact ⟨c :: s1, s2, rfl, (ih1 s1).mp h1, h2⟩
        · exact ⟨[], c :: s, rfl, (nullable_iff r1).mp hn, (ih2 s).mp h2⟩
      · rintro ⟨t1, t2, heq, h1, h2⟩
        cases t1 with
        | nil =>
          right
          rw [List.nil_append] at heq
          exact (ih2 s).mpr (heq ▸ h2)
        | cons a t1 =>
          left
          rw [List.cons_append] at heq
          injection heq with hac htail
          subst hac
          exact ⟨t1, t2, htail, (ih1 t1).mpr h1, h2⟩
    · rw [deriv, if_neg hn]
      rw [rmatch_cat_iff, rmatch_cat_iff]
      constructor
      · rintro ⟨s1, s2, rfl, h1, h2⟩
        exact ⟨c :: s1, s2, rfl, (ih1 s1).mp h1, h2⟩
      · rintro ⟨t1, t2, heq, h1, h2⟩
        cases t1 with
        | nil =>
          exact absurd ((nullable_iff r1).mpr h1) (by simpa using hn)
        | cons a t1 =>
          rw [List.cons_append] at heq
          injection heq with hac htail
          subst hac
          exact ⟨t1, t2, htail, (ih1 t1).mpr h1, h2⟩
  | star r ih =>
    intro s
    rw [deriv, rmatch_cat_iff]
    constructor
    · rintro ⟨s1, s2, rfl, h1, h2⟩
      exact (List.cons_append c s1 s2) ▸ RMatch.starCons ((ih s1).mp h1) h2
    · intro h
      rcases rmatch_star_cons h with ⟨s1, s2, rfl, h1, h2⟩
      exact ⟨s1, s2, rfl, (ih s1).mpr h1, h2⟩

/-- Derivative-based regex matcher: full match of `r` against `s`. -/
def matchR (r : Regex) (s : List Char) : Bool :=
  nullable (s.foldl (fun q c => deriv c q) r)

theorem matchR_iff : ∀ (s : List Char) (r : Regex), matchR r s = true ↔ RMatch r s := by
  intro s
  induction s with
  | nil => intro r; simpa [matchR] using nullable_iff r
  | cons c cs ih =>
    intro r
    have : matchR r (c :: cs) = matchR (deriv c r) cs := rfl
    rw [this]
    exact (ih (deriv c r)).trans (deriv_iff c r cs)

/-- Unanchored search is modelled as a full match of `.*r.*`. -/
def searchRe (r : Regex) : Regex := .cat (.star .any) (.cat r (.star .any))

theorem rmatch_star_any : ∀ s : List Char, RMatch (.star .any) s := by
  intro s
  induction s with
  | nil => exact .starNil
  | cons c cs ih =>
    have : RMatch (Regex.star .any) ([c] ++ cs) := .starCons (.any c) ih
    simpa using this

theorem search_iff {r : Regex} {s : List Char} :
    RMatch (searchRe r) s ↔ ∃ pre mid post, s = pre ++ mid ++ post ∧ RMatch r mid := by
  rw [searchRe, rmatch_cat_iff]
  constructor
  · rintro ⟨pre, rest, rfl, -, hrest⟩
    rcases rmatch_cat_iff.mp hrest with ⟨mid, post, rfl, hmid, -⟩
    exact ⟨pre, mid, post, by rw [List.append_assoc], hmid⟩
  · rintro ⟨pre, mid, post, rfl, hmid⟩
    refine ⟨pre, mid ++ post, by rw [List.append_assoc], rmatch_star_any pre, ?_⟩
    exact rmatch_cat_iff.mpr ⟨mid, post, rfl, hmid, rmatch_star_any post⟩

/-! ## Regex compilation (pattern parser) -/

/-- Metacharacters of the modelled regex subset; unsupported ones reject. -/
def isMetaChar (c : Char) : Bool :=
  c == '(' || c == ')' || c == '|' || c == '*' || c == '.' || c == '+' ||
  c == '?' || c == '[' || c == ']' || c == '{' || c == '}' || c == '\\' ||
  c == '^' || c == '$'

mutual

/-- Parse an alternation (`a|b|c`). -/
def parseA : Nat → List Char → Option (Regex × List Char)
  | 0, _ => none
  | fuel + 1, cs =>
    match parseC fuel cs with
    | none => none
    | some (r1, rest) =>
      match rest with
      | '|' :: rest2 =>
        match parseA fuel rest2 with
        | none => none
        | some (r2, rest3) => some (.alt r1 r2, rest3)
      | _ => some (r1, rest)

/-- Parse a concatenation of starred atoms. -/
def parseC : Nat → List Char → Option (Regex × List Char)
  | 0, _ => none
  | fuel + 1, cs =>
    match cs with
    | [] => some (.eps, [])
    | ')' :: _ => some (.eps, cs)
    | '|' :: _ => some (.eps, cs)
    | _ =>
      match parseAtom fuel cs with
      | none => none
      | some (r, rest) =>
        let starred : Regex × List Char :=
          match rest with
          | '*' :: more => (.star r, more)
          | _ => (r, rest)
        match parseC fuel starred.2 with
        | none => none
        | some (rr, rest3) => some (.cat starred.1 rr, rest3)

/-- Parse a single atom: group, wildcard, or literal. -/
def parseAtom : Nat → List Char → Option (Regex × List Char)
  | 0, _ => none
  | fuel + 1, cs =>
    match cs with
    | [] => none
    | '(' :: rest =>
      match parseA fuel rest with
      | none => none
      | some (r, rest2) =>
        match rest2 with
        | ')' :: rest3 => some (r, rest3)
        | _ => none
    | '.' :: rest => some (.any, rest)
    | c :: rest => if isMetaChar c then none else some (.char c, rest)

end

/-- Modelled from the spec: compilation of the search pattern in regex mode
(`re.compile` in `Database._scan_tables_regex`); `none` models a compile
failure (`InvalidPattern`). -/
def parseRegex (p : String) : Option Regex :=
  match parseA (4 * (p.data.length + 1)) p.data with
  | some (r, []) => some r
  | _ => none

/-- Lower-case every character of a string (models Python `str.lower`). -/
def lowerChars (s : List Char) : List Char := s.map Char.toLower

/-- Lower-case every literal of a regex: together with `lowerChars` on the
candidate this models case-insensitive compilation (`re.IGNORECASE`). -/
def rlower : Regex → Regex
  | .emp => .emp
  | .eps => .eps
  | .char c => .char c.toLower
  | .any => .any
  | .alt r1 r2 => .alt (rlower r1) (rlower r2)
  | .cat r1 r2 => .cat (rlower r1) (rlower r2)
  | .star r => .star (rlower r)

/-- Executable test: does the case-insensitively compiled regex find a
match anywhere inside the candidate? -/
def qualifiesB (r : Regex) (c : String) : Bool :=
  matchR (searchRe (rlower r)) (lowerChars c.data)

/-- Declarative counterpart of `qualifiesB`: some contiguous piece of the
lower-cased candidate is matched by the lower-cased regex. -/
def Qualifies (r : Regex) (c : String) : Prop :=
  ∃ pre mid post, lowerChars c.data = pre ++ mid ++ post ∧ RMatch (rlower r) mid

theorem qualifiesB_iff {r : Regex} {c : String} :
    qualifiesB r c = true ↔ Qualifies r c := by
  rw [qualifiesB, Qualifies, matchR_iff]
  exact search_iff

instance (r : Regex) (c : String) : Decidable (Qualifies r c) :=
  decidable_of_iff (qualifiesB r c = true) qualifiesB_iff

/-- Error raised when a regex pattern fails to compile. -/
structure InvalidPattern where
  pattern : String
deriving DecidableEq

/-- Modelled from the spec: `Database._scan_tables_regex` — compile the
pattern case-insensitively (raising `InvalidPattern` on failure), keep the
candidates on which the expression finds a match anywhere, in input order,
and truncate to `limit`. -/
def scan_tables_regex (cands : List String) (p : String) (limit : Nat) :
    Except InvalidPattern (List String) :=
  match parseRegex p with
  | none => .error ⟨p⟩
  | some r => .ok ((cands.filter (fun c => qualifiesB r c)).take limit)

/-! ## Jaro-Winkler similarity

Modelled from the spec: for every candidate a normalized similarity in
`[0,1]` between candidate and pattern — the Jaro similarity (greedy
windowed character matching, transposition count) adjusted with a boost
for shared leading characters (prefix length cap 4, scale factor 0.1,
applied only when the base similarity exceeds 0.7). -/

/-- Search window radius: `max(|s1|,|s2|)/2 - 1`, clamped at 0. -/
def jwWindow (l1 l2 : Nat) : Nat := max l1 l2 / 2 - 1

/-- Candidate positions of `s2` inspected for character `k` of `s1`. -/
def windowList (k w l2 : Nat) : List Nat :=
  natSpan (k - w) (min l2 (k + w + 1) - (k - w))

/-- First unused position of `s2` inside the window holding character `c`. -/
def findJ (s2 : List Char) (used : List Nat) (c : Char) : List Nat → Option Nat
  | [] => none
  | j :: js => if j ∉ used ∧ s2[j]? = some c then some j else findJ s2 used c js

/-- Greedy matching pass of the Jaro algorithm.  Each element of the
accumulator is `(i, j, c)`: position `i` of `s1` was matched to position
`j` of `s2`, both holding character `c`. -/
def jaroFold (s2 : List Char) (w : Nat) :
    Nat → List Char → List (Nat × Nat × Char) → List (Nat × Nat × Char)
  | _, [], acc => acc
  | k, c :: cs, acc =>
    match findJ s2 (acc.map (fun pr => pr.2.1)) c (windowList k w s2.length) with
    | some j => jaroFold s2 w (k + 1) cs (acc ++ [(k, j, c)])
    | none => jaroFold s2 w (k + 1) cs acc

/-- All matched pairs of `s1` against `s2`. -/
def pairsOf (s1 s2 : List Char) : List (Nat × Nat × Char) :=
  jaroFold s2 (jwWindow s1.length s2.length) 0 s1 []

/-- Comparison of matched pairs by their `s2` position. -/
def bySnd (a b : Nat × Nat × Char) : Bool := decide (a.2.1 ≤ b.2.1)

/-- Matched characters in `s1` order. -/
def m1chars (pairs : List (Nat × Nat × Char)) : List Char :=
  pairs.map (fun pr => pr.2.2)

/-- Matched characters in `s2` order. -/
def m2chars (pairs : List (Nat × Nat × Char)) : List Char :=
  (sortOrd bySnd pairs).map (fun pr => pr.2.2)

/-- Number of positions where the two matched sequences differ. -/
def mismatches (u v : List Char) : Nat :=
  ((u.zip v).filter (fun pr => !(pr.1 == pr.2))).length

/-- Jaro transposition count: half the number of differing positions of
the two matched sequences. -/
def jaroT (s1 s2 : List Char) : Nat :=
  mismatches (m1chars (pairsOf s1 s2)) (m2chars (pairsOf s1 s2)) / 2

/-- Body of the Jaro formula in the non-degenerate case. -/
def jaroBody (s1 s2 : List Char) : ℚ :=
  (((pairsOf s1 s2).length : ℚ) / (s1.length : ℚ) +
    ((pairsOf s1 s2).length : ℚ) / (s2.length : ℚ) +
    (((pairsOf s1 s2).length : ℚ) - (jaroT s1 s2 : ℚ)) / ((pairsOf s1 s2).length : ℚ)) / 3

/-- Jaro similarity. -/
def jaroSim (s1 s2 : List Char) : ℚ :=
  if s1.isEmpty && s2.isEmpty then 1
  else if (pairsOf s1 s2).length = 0 then 0
  else jaroBody s1 s2

/-- Length of the shared leading-character run. -/
def commonLead : List Char → List Char → Nat
  | a :: as, b :: bs => if a = b then commonLead as bs + 1 else 0
  | _, _ => 0

/-- Jaro-Winkler similarity: Jaro plus the Winkler boost, applied only
above the 0.7 threshold, with the shared-prefix length capped at 4 and
scale factor 0.1. -/
def jaroWinkler (s1 s2 : List Char) : ℚ :=
  let j := jaroSim s1 s2
  if 7/10 < j then j + ((min (commonLead s1 s2) 4 : Nat) : ℚ) * (1/10) * (1 - j)
  else j

/-! ### The self-match scores 1 -/

theorem findJ_eq_some_self {s2 : List Char} {used : List Nat} {c : Char} {k : Nat}
    (hlow : ∀ j, j < k → j ∈ used) (hk : k ∉ used) (hc : s2[k]? = some c) :
    ∀ {n a : Nat}, a ≤ k → k < a + n → findJ s2 used c (natSpan a n) = some k := by
  intro n
  induction n with
  | zero => intro a h1 h2; omega
  | succ m ih =>
    intro a h1 h2
    rw [natSpan]
    by_cases hak : a = k
    · subst hak
      rw [findJ, if_pos ⟨hk, hc⟩]
    · have halt : a < k := by omega
      rw [findJ, if_neg ?_]
      · exact ih (by omega) (by omega)
      · rintro ⟨hnot, -⟩
        exact hnot (hlow a halt)

/-- The diagonal pair list `[(0,0,s₀), …, (k-1,k-1,s_{k-1})]`. -/
def diagP (s : List Char) (k : Nat) : List (Nat × Nat × Char) :=
  (List.range k).map (fun i => (i, i, s.getD i ' '))

theorem diagP_snds (s : List Char) (k : Nat) :
    (diagP s k).map (fun pr => pr.2.1) = List.range k := by
  rw [diagP, List.map_map]
  have h : ((fun pr => pr.2.1) ∘ fun i => ((i, i, s.getD i ' ') : Nat × Nat × Char)) = id :=
    rfl
  rw [h, List.map_id]

theorem jaroFold_diag {s : List Char} {w : Nat} : ∀ (cs : List Char) (k : Nat),
    (∀ n, cs[n]? = s[k + n]?) →
    jaroFold s w k cs (diagP s k) = diagP s (k + cs.length) := by
  intro cs
  induction cs with
  | nil => intro k h; simp [jaroFold]
  | cons c cs ih =>
    intro k h
    have hc : s[k]? = some c := by
      have := h 0
      simpa using this.symm
    have hklen : k < s.length := by
      rcases List.getElem?_eq_some.mp hc with ⟨hlt, -⟩
      exact hlt
    have hwin : findJ s ((diagP s k).map (fun pr => pr.2.1)) c
        (windowList k w s.length) = some k := by
      rw [diagP_snds, windowList]
      exact findJ_eq_some_self
        (fun j hj => List.mem_range.mpr hj)
        (by simp)
        hc
        (by omega) (by omega)
    rw [jaroFold, hwin]
    show jaroFold s w (k + 1) cs (diagP s k ++ [(k, k, c)]) = diagP s (k + (c :: cs).length)
    have hnext : diagP s k ++ [(k, k, c)] = diagP s (k + 1) := by
      have hgd : s[k]?.getD ' ' = c := by rw [hc]; rfl
      rw [diagP, diagP, List.range_succ, List.map_append]
      simp [List.getD_eq_getElem?_getD, hgd]
    rw [hnext, ih (k + 1) (fun n => by
      have := h (n + 1)
      simpa [show k + (n + 1) = k + 1 + n by omega] using this)]
    have harith : k + 1 + cs.length = k + (c :: cs).length := by
      simp only [List.length_cons]
      omega
    rw [harith]

theorem pairsOf_self (s : List Char) : pairsOf s s = diagP s s.length := by
  rw [pairsOf]
  have h0 : diagP s 0 = [] := by simp [diagP]
  have hmain : jaroFold s (jwWindow s.length s.length) 0 s (diagP s 0) =
      diagP s (0 + s.length) := jaroFold_diag s 0 (fun n => by simp)
  rw [h0] at hmain
  simpa using hmain

theorem getD_range_map (s : List Char) :
    (List.range s.length).map (fun i => s.getD i ' ') = s := by
  apply List.ext_getElem
  · simp
  · intro i h1 h2
    simp only [List.getElem_map, List.getElem_range]
    rw [List.getD_eq_getElem]

theorem m1chars_diag (s : List Char) : m1chars (diagP s s.length) = s := by
  rw [m1chars, diagP, List.map_map]
  exact getD_range_map s

theorem sortOrd_diag (s : List Char) (k : Nat) :
    sortOrd bySnd (diagP s k) = diagP s k := by
  apply sortOrd_eq_of_pairwise
  rw [diagP, List.pairwise_map]
  refine (List.pairwise_lt_range k).imp ?_
  intro a b hab
  simp [bySnd, Nat.le_of_lt hab]

theorem m2chars_diag (s : List Char) : m2chars (diagP s s.length) = s := by
  rw [m2chars, sortOrd_diag, diagP, List.map_map]
  exact getD_range_map s

theorem mismatches_self (u : List Char) : mismatches u u = 0 := by
  induction u with
  | nil => rfl
  | cons a as ih => simpa [mismatches, List.zip_cons_cons] using ih

theorem jaroSim_self (s : List Char) : jaroSim s s = 1 := by
  by_cases hs : s = []
  · subst hs; rfl
  · have hlen : (pairsOf s s).length = s.length := by
      rw [pairsOf_self]
      simp [diagP]
    have hm : (pairsOf s s).length ≠ 0 := by
      rw [hlen]
      simpa [List.length_eq_zero] using hs
    rw [jaroSim, if_neg (by simp [List.isEmpty_iff, hs]), if_neg hm]
    have ht : jaroT s s = 0 := by
      rw [jaroT, pairsOf_self, m1chars_diag, m2chars_diag, mismatches_self]
    rw [jaroBody, ht, hlen]
    have hq : (s.length : ℚ) ≠ 0 := by
      simpa [List.length_eq_zero] using hs
    field_simp
    ring

theorem jaroWinkler_self (s : List Char) : jaroWinkler s s = 1 := by
  rw [jaroWinkler, jaroSim_self]
  rw [if_pos (by norm_num)]
  ring

/-! ### Structural invariants of the greedy matching pass -/

/-- Invariants of the accumulator of `jaroFold`: matched `s1` positions are
below `k`, strictly increasing, matched `s2` positions are distinct, and
every pair records the character found at both matched positions. -/
structure AccGood (s1 s2 : List Char) (acc : List (Nat × Nat × Char)) (k : Nat) : Prop where
  bound : ∀ pr ∈ acc, pr.1 < k
  src : ∀ pr ∈ acc, s1[pr.1]? = some pr.2.2
  tgt : ∀ pr ∈ acc, s2[pr.2.1]? = some pr.2.2
  fstSorted : (acc.map (fun pr => pr.1)).Pairwise (· < ·)
  sndNodup : (acc.map (fun pr => pr.2.1)).Nodup

theorem findJ_some_spec {s2 : List Char} {used : List Nat} {c : Char} {j : Nat} :
    ∀ {js : List Nat}, findJ s2 used c js = some j → j ∉ used ∧ s2[j]? = some c := by
  intro js
  induction js with
  | nil => intro h; exact absurd h (by simp [findJ])
  | cons a as ih =>
    intro h
    rw [findJ] at h
    split_ifs at h with hcond
    · injection h with hj
      exact hj ▸ hcond
    · exact ih h

theorem jaroFold_good {s1 s2 : List Char} {w : Nat} :
    ∀ (cs : List Char) (k : Nat) (acc : List (Nat × Nat × Char)),
    (∀ n, cs[n]? = s1[k + n]?) → AccGood s1 s2 acc k →
    AccGood s1 s2 (jaroFold s2 w k cs acc) (k + cs.length) := by
  intro cs
  induction cs with
  | nil => intro k acc h hg; simpa [jaroFold] using hg
  | cons c cs ih =>
    intro k acc h hg
    have hshift : ∀ n, cs[n]? = s1[k + 1 + n]? := fun n => by
      have := h (n + 1)
      simpa [show k + (n + 1) = k + 1 + n by omega] using this
    have hck : s1[k]? = some c := by
      have := h 0
      simpa using this.symm
    have harith : k + 1 + cs.length = k + (c :: cs).length := by
      simp only [List.length_cons]
      omega
    rw [jaroFold]
    cases hf : findJ s2 (acc.map (fun pr => pr.2.1)) c (windowList k w s2.length) with
    | none =>
      show AccGood s1 s2 (jaroFold s2 w (k + 1) cs acc) (k + (c :: cs).length)
      have hg' : AccGood s1 s2 acc (k + 1) :=
        { bound := fun pr hpr => Nat.lt_succ_of_lt (hg.bound pr hpr)
          src := hg.src
          tgt := hg.tgt
          fstSorted := hg.fstSorted
          sndNodup := hg.sndNodup }
      exact harith ▸ ih (k + 1) acc hshift hg'
    | some j =>
      show AccGood s1 s2 (jaroFold s2 w (k + 1) cs (acc ++ [(k, j, c)])) (k + (c :: cs).length)
      obtain ⟨hjnot, hjc⟩ := findJ_some_spec hf
      have hg' : AccGood s1 s2 (acc ++ [(k, j, c)]) (k + 1) := by
        refine ⟨?_, ?_, ?_, ?_, ?_⟩
        · intro pr hpr
          rcases List.mem_append.mp hpr with hl | hr
          · exact Nat.lt_succ_of_lt (hg.bound pr hl)
          · rcases List.mem_singleton.mp hr with rfl
            omega
        · intro pr hpr
          rcases List.mem_append.mp hpr with hl | hr
          · exact hg.src pr hl
          · rcases List.mem_singleton.mp hr with rfl
            exact hck
        · intro pr hpr
          rcases List.mem_append.mp hpr with hl | hr
          · exact hg.tgt pr hl
          · rcases List.mem_singleton.mp hr with rfl
            exact hjc
        · rw [List.map_append, List.pairwise_append]
          refine ⟨hg.fstSorted, by simp, ?_⟩
          intro a ha b hb
          rcases List.mem_map.mp ha with ⟨pr, hpr, rfl⟩
          rcases List.mem_singleton.mp (by simpa using hb) with rfl
          exact hg.bound pr hpr
        · rw [List.map_append, List.nodup_append]
          refine ⟨hg.sndNodup, by simp, ?_⟩
          intro a ha
          rcases List.mem_map.mp ha with ⟨pr, hpr, rfl⟩
          simp only [List.map_cons, List.map_nil, List.mem_singleton]
          intro heq
          exact hjnot (heq ▸ List.mem_map.mpr ⟨pr, hpr, rfl⟩)
      exact harith ▸ ih (k + 1) (acc ++ [(k, j, c)]) hshift hg'

theorem pairsOf_good (s1 s2 : List Char) :
    AccGood s1 s2 (pairsOf s1 s2) s1.length := by
  have h0 : AccGood s1 s2 [] 0 :=
    { bound := by simp
      src := by simp
      tgt := by simp
      fstSorted := by simp
      sndNodup := by simp }
  have hmain : AccGood s1 s2
      (jaroFold s2 (jwWindow s1.length s2.length) 0 s1 []) (0 + s1.length) :=
    jaroFold_good s1 0 [] (fun n => by simp) h0
  simpa [pairsOf] using hmain

theorem pairsOf_length_le_left (s1 s2 : List Char) :
    (pairsOf s1 s2).length ≤ s1.length := by
  have hg := pairsOf_good s1 s2
  have hd : ((pairsOf s1 s2).map (fun pr => pr.1)).Nodup :=
    hg.fstSorted.imp Nat.ne_of_lt
  have hb : ∀ x ∈ (pairsOf s1 s2).map (fun pr => pr.1), x < s1.length := by
    intro x hx
    rcases List.mem_map.mp hx with ⟨pr, hpr, rfl⟩
    rcases List.getElem?_eq_some.mp (hg.src pr hpr) with ⟨hlt, -⟩
    exact hlt
  have := nodup_bounded_length_le hd hb
  simpa using this

theorem pairsOf_length_le_right (s1 s2 : List Char) :
    (pairsOf s1 s2).length ≤ s2.length := by
  have hg := pairsOf_good s1 s2
  have hb : ∀ x ∈ (pairsOf s1 s2).map (fun pr => pr.2.1), x < s2.length := by
    intro x hx
    rcases List.mem_map.mp hx with ⟨pr, hpr, rfl⟩
    rcases List.getElem?_eq_some.mp (hg.tgt pr hpr) with ⟨hlt, -⟩
    exact hlt
  have := nodup_bounded_length_le hg.sndNodup hb
  simpa using this

/-! ### Mismatch counting -/

theorem mismatches_cons (a b : Char) (u v : List Char) :
    mismatches (a :: u) (b :: v) =
      (if a = b then 0 else 1) + mismatches u v := by
  by_cases hab : a = b
  · simp [mismatches, List.zip_cons_cons, hab]
  · simp [mismatches, List.zip_cons_cons, hab, Nat.add_comm]

theorem mismatches_eq_zero : ∀ {u v : List Char}, mismatches u v = 0 →
    u.length = v.length → u = v := by
  intro u
  induction u with
  | nil =>
    intro v _ hlen
    exact (List.length_eq_zero.mp hlen.symm).symm
  | cons a as ih =>
    intro v hm hlen
    cases v with
    | nil => simp at hlen
    | cons b bs =>
      rw [mismatches_cons] at hm
      by_cases hab : a = b
      · rw [if_pos hab] at hm
        have := ih (by simpa using hm) (by simpa using hlen)
        rw [hab, this]
      · rw [if_neg hab] at hm
        omega

theorem mismatches_perm_ne_one : ∀ {u v : List Char}, u.length = v.length →
    List.Perm u v → mismatches u v ≠ 1 := by
  intro u
  induction u with
  | nil =>
    intro v hlen _
    have : v = [] := List.length_eq_zero.mp hlen.symm
    subst this
    simp [mismatches]
  | cons a as ih =>
    intro v hlen hperm
    cases v with
    | nil => simp at hlen
    | cons b bs =>
      rw [mismatches_cons]
      by_cases hab : a = b
      · rw [if_pos hab]
        subst hab
        simpa using ih (by simpa using hlen) (hperm.cons_inv)
      · rw [if_neg hab]
        intro hone
        have hm0 : mismatches as bs = 0 := by omega
        have hasbs : as = bs := mismatches_eq_zero hm0 (by simpa using hlen)
        subst hasbs
        have hcount := hperm.count_eq a
        rw [List.count_cons_self, List.count_cons_of_ne hab] at hcount
        omega

/-! ### Score bounds and uniqueness of the perfect score -/

theorem bySnd_total : ∀ a b : Nat × Nat × Char, bySnd a b = false → bySnd b a = true := by
  intro a b h
  simp only [bySnd, decide_eq_false_iff_not, not_le] at h
  simp only [bySnd, decide_eq_true_eq]
  omega

theorem bySnd_trans : ∀ a b c : Nat × Nat × Char,
    bySnd a b = true → bySnd b c = true → bySnd a c = true := by
  intro a b c h1 h2
  simp only [bySnd, decide_eq_true_eq] at *
  omega

theorem jaroSim_le_one (s1 s2 : List Char) : jaroSim s1 s2 ≤ 1 := by
  rw [jaroSim]
  split_ifs with h1 h2
  · exact le_refl 1
  · norm_num
  · have hm1 : (pairsOf s1 s2).length ≤ s1.length := pairsOf_length_le_left s1 s2
    have hm2 : (pairsOf s1 s2).length ≤ s2.length := pairsOf_length_le_right s1 s2
    have hmpos : 0 < (pairsOf s1 s2).length := Nat.pos_of_ne_zero h2
    have hl1 : (0 : ℚ) < (s1.length : ℚ) := by
      have : 0 < s1.length := lt_of_lt_of_le hmpos hm1
      exact_mod_cast this
    have hl2 : (0 : ℚ) < (s2.length : ℚ) := by
      have : 0 < s2.length := lt_of_lt_of_le hmpos hm2
      exact_mod_cast this
    have hmq : (0 : ℚ) < ((pairsOf s1 s2).length : ℚ) := by exact_mod_cast hmpos
    have ht1 : ((pairsOf s1 s2).length : ℚ) / (s1.length : ℚ) ≤ 1 := by
      rw [div_le_one hl1]
      exact_mod_cast hm1
    have ht2 : ((pairsOf s1 s2).length : ℚ) / (s2.length : ℚ) ≤ 1 := by
      rw [div_le_one hl2]
      exact_mod_cast hm2
    have ht3 : (((pairsOf s1 s2).length : ℚ) - ((jaroT s1 s2 : Nat) : ℚ)) /
        ((pairsOf s1 s2).length : ℚ) ≤ 1 := by
      rw [div_le_one hmq]
      have : (0 : ℚ) ≤ ((jaroT s1 s2 : Nat) : ℚ) := by positivity
      linarith
    rw [jaroBody]
    linarith

theorem jaroWinkler_le_one (s1 s2 : List Char) : jaroWinkler s1 s2 ≤ 1 := by
  rw [jaroWinkler]
  have hj : jaroSim s1 s2 ≤ 1 := jaroSim_le_one s1 s2
  split_ifs with hb
  · have hcap : ((min (commonLead s1 s2) 4 : Nat) : ℚ) ≤ 4 := by
      exact_mod_cast Nat.min_le_right (commonLead s1 s2) 4
    have hcap0 : (0 : ℚ) ≤ ((min (commonLead s1 s2) 4 : Nat) : ℚ) := by positivity
    nlinarith [mul_nonneg (sub_nonneg.mpr hj)
      (by linarith : (0 : ℚ) ≤ 1 - ((min (commonLead s1 s2) 4 : Nat) : ℚ) * (1/10))]
  · exact hj

theorem jaroWinkler_eq_one_jaroSim {s1 s2 : List Char}
    (h : jaroWinkler s1 s2 = 1) : jaroSim s1 s2 = 1 := by
  rw [jaroWinkler] at h
  split_ifs at h with hb
  · have hcap : ((min (commonLead s1 s2) 4 : Nat) : ℚ) ≤ 4 := by
      exact_mod_cast Nat.min_le_right (commonLead s1 s2) 4
    have hfac : (1 - jaroSim s1 s2) *
        (1 - ((min (commonLead s1 s2) 4 : Nat) : ℚ) * (1/10)) = 0 := by
      linear_combination -h
    rcases mul_eq_zero.mp hfac with h1 | h2
    · linarith
    · linarith
  · exact h

theorem jaroWinkler_eq_one_imp {s1 s2 : List Char}
    (h : jaroWinkler s1 s2 = 1) : s1 = s2 := by
  have hj := jaroWinkler_eq_one_jaroSim h
  rw [jaroSim] at hj
  split_ifs at hj with h1 h2
  · simp only [Bool.and_eq_true] at h1
    rw [List.isEmpty_iff.mp h1.1, List.isEmpty_iff.mp h1.2]
  · norm_num at hj
  · -- the main case: m ≠ 0
    rw [jaroBody] at hj
    set pairs := pairsOf s1 s2 with hpairs
    set m := pairs.length with hmdef
    set t := jaroT s1 s2 with htdef
    have hg := pairsOf_good s1 s2
    have hm1 : m ≤ s1.length := pairsOf_length_le_left s1 s2
    have hm2 : m ≤ s2.length := pairsOf_length_le_right s1 s2
    have hmpos : 0 < m := Nat.pos_of_ne_zero h2
    have hl1 : (0 : ℚ) < (s1.length : ℚ) := by
      have : 0 < s1.length := lt_of_lt_of_le hmpos hm1
      exact_mod_cast this
    have hl2 : (0 : ℚ) < (s2.length : ℚ) := by
      have : 0 < s2.length := lt_of_lt_of_le hmpos hm2
      exact_mod_cast this
    have hmq : (0 : ℚ) < (m : ℚ) := by exact_mod_cast hmpos
    have ht1 : ((m : ℚ) / (s1.length : ℚ)) ≤ 1 := by
      rw [div_le_one hl1]; exact_mod_cast hm1
    have ht2 : ((m : ℚ) / (s2.length : ℚ)) ≤ 1 := by
      rw [div_le_one hl2]; exact_mod_cast hm2
    have ht0 : (0 : ℚ) ≤ (t : ℚ) := by positivity
    have ht3 : ((m : ℚ) - (t : ℚ)) / (m : ℚ) ≤ 1 := by
      rw [div_le_one hmq]; linarith
    -- each of the three terms equals one
    have heq1 : (m : ℚ) / (s1.length : ℚ) = 1 := by linarith
    have heq2 : (m : ℚ) / (s2.length : ℚ) = 1 := by linarith
    have heq3 : ((m : ℚ) - (t : ℚ)) / (m : ℚ) = 1 := by linarith
    have hml1 : m = s1.length := by
      have := (div_eq_one_iff_eq (ne_of_gt hl1)).mp heq1
      exact_mod_cast this
    have hml2 : m = s2.length := by
      have := (div_eq_one_iff_eq (ne_of_gt hl2)).mp heq2
      exact_mod_cast this
    have htzero : t = 0 := by
      rw [div_eq_one_iff_eq (ne_of_gt hmq)] at heq3
      have : (t : ℚ) = 0 := by linarith
      exact_mod_cast this
    -- transposition count is zero, hence the matched sequences are equal
    have hmismle : mismatches (m1chars pairs) (m2chars pairs) ≤ 1 := by
      have h2' : jaroT s1 s2 = 0 := by rw [← htdef]; exact htzero
      rw [jaroT] at h2'
      rw [hpairs]
      omega
    have hperm12 : List.Perm (m1chars pairs) (m2chars pairs) := by
      rw [m1chars, m2chars]
      exact ((sortOrd_perm bySnd pairs).map (fun pr => pr.2.2)).symm
    have hlen12 : (m1chars pairs).length = (m2chars pairs).length :=
      hperm12.length_eq
    have hmism0 : mismatches (m1chars pairs) (m2chars pairs) = 0 := by
      rcases Nat.lt_or_ge (mismatches (m1chars pairs) (m2chars pairs)) 1 with hlt | hge
      · omega
      · have : mismatches (m1chars pairs) (m2chars pairs) = 1 := by omega
        exact absurd this (mismatches_perm_ne_one hlen12 hperm12)
    have hchars : m1chars pairs = m2chars pairs :=
      mismatches_eq_zero hmism0 hlen12
    -- the matched s1 positions are exactly 0,…,|s1|-1
    have hfst : pairs.map (fun pr => pr.1) = List.range s1.length := by
      refine pairwise_lt_bounded_eq_range hg.fstSorted ?_ (by simpa using hml1)
      intro x hx
      rcases List.mem_map.mp hx with ⟨pr, hpr, rfl⟩
      rcases List.getElem?_eq_some.mp (hg.src pr hpr) with ⟨hlt, -⟩
      exact hlt
    -- the matched s2 positions (in sorted order) are exactly 0,…,|s2|-1
    have hspperm : List.Perm (sortOrd bySnd pairs) pairs := sortOrd_perm bySnd pairs
    have hsnd : (sortOrd bySnd pairs).map (fun pr => pr.2.1) = List.range s2.length := by
      have hsorted : ((sortOrd bySnd pairs).map (fun pr => pr.2.1)).Pairwise (· ≤ ·) := by
        rw [List.pairwise_map]
        refine (sortOrd_pairwise bySnd bySnd_total bySnd_trans pairs).imp ?_
        intro a b hab
        simpa [bySnd] using hab
      have hnd : ((sortOrd bySnd pairs).map (fun pr => pr.2.1)).Nodup := by
        have := (hspperm.map (fun pr => pr.2.1)).nodup_iff
        exact this.mpr hg.sndNodup
      have hplt : ((sortOrd bySnd pairs).map (fun pr => pr.2.1)).Pairwise (· < ·) := by
        have hand := List.Pairwise.and hsorted hnd
        exact hand.imp (fun hab => lt_of_le_of_ne hab.1 hab.2)
      refine pairwise_lt_bounded_eq_range hplt ?_ ?_
      · intro x hx
        rcases List.mem_map.mp hx with ⟨pr, hpr, rfl⟩
        rcases List.getElem?_eq_some.mp (hg.tgt pr (hspperm.subset hpr)) with ⟨hlt, -⟩
        exact hlt
      · rw [List.length_map, hspperm.length_eq]
        exact hml2
    -- recover the strings from the matched pairs
    have hs1 : s1 = m1chars pairs := by
      apply List.ext_getElem
      · rw [m1chars, List.length_map, ← hml1]
      · intro i hi1 hi2
        rw [m1chars, List.length_map] at hi2
        have hfsti : pairs[i].1 = i := by
          have hcong := congrArg (fun l => l[i]?) hfst
          simp only [List.getElem?_map, List.getElem?_eq_getElem hi2] at hcong
          rw [List.getElem?_range hi1] at hcong
          simpa using hcong
        have hsrc := hg.src pairs[i] (List.getElem_mem hi2)
        rw [hfsti] at hsrc
        rw [List.getElem?_eq_getElem hi1] at hsrc
        injection hsrc with hval
        simp only [m1chars, List.getElem_map]
        exact hval
    have hs2 : s2 = m2chars pairs := by
      apply List.ext_getElem
      · rw [m2chars, List.length_map, hspperm.length_eq, ← hml2]
      · intro i hi1 hi2
        rw [m2chars, List.length_map] at hi2
        have hsndi : (sortOrd bySnd pairs)[i].2.1 = i := by
          have hcong := congrArg (fun l => l[i]?) hsnd
          simp only [List.getElem?_map, List.getElem?_eq_getElem hi2] at hcong
          rw [List.getElem?_range hi1] at hcong
          simpa using hcong
        have htgt := hg.tgt (sortOrd bySnd pairs)[i]
          (hspperm.subset (List.getElem_mem hi2))
        rw [hsndi] at htgt
        rw [List.getElem?_eq_getElem hi1] at htgt
        injection htgt with hval
        simp only [m2chars, List.getElem_map]
        exact hval
    rw [hs1, hs2, hchars]

/-! ## Tokenization

Modelled from the spec: candidates and the pattern are tokenized by
splitting on the separator characters and on camel-case boundaries into
lower-cased tokens; empty tokens are dropped.  A purely-whitespace
pattern deliberately survives as one literal token (spec §4.1.4 note and
§9 open question), so whitespace is not a separator here. -/

def isSepChar (c : Char) : Bool := c == '_' || c == '.' || c == '-'

/-- Split on separators and camel-case boundaries; `cur` is the current
token accumulated in reverse. -/
def camelSplit : List Char → List Char → List (List Char)
  | cur, [] => [cur.reverse]
  | cur, c :: rest =>
    if isSepChar c then cur.reverse :: camelSplit [] rest
    else
      match cur with
      | [] => camelSplit [c] rest
      | p :: _ =>
        if p.isLower && c.isUpper then cur.reverse :: camelSplit [c] rest
        else camelSplit (c :: cur) rest

/-- Tokenizer shared by the BM25 and TF-IDF modes. -/
def tokenize (s : List Char) : List (List Char) :=
  ((camelSplit [] s).map (fun t => t.map Char.toLower)).filter (fun t => !t.isEmpty)

/-! ## Corpus statistics (recomputed per call, spec §4.1.3/§4.1.4/§5) -/

/-- Candidates that produce at least one token (the scored corpus). -/
def docsOf (cands : List String) : List String :=
  cands.filter (fun c => !(tokenize c.data).isEmpty)

/-- Substring-sensitive term frequency: how many tokens contain `t`. -/
def tfSub (toks : List (List Char)) (t : List Char) : Nat :=
  (toks.filter (fun tok => hasSubB t tok)).length

/-- Document frequency of term `t` over the corpus. -/
def dfSub (cands : List String) (t : List Char) : Nat :=
  ((docsOf cands).filter (fun c => decide (0 < tfSub (tokenize c.data) t))).length

/-- Positive inverse-document-frequency weight `(N+1)/(df+1)`. -/
def idfOf (cands : List String) (t : List Char) : ℚ :=
  (((docsOf cands).length : ℚ) + 1) / ((dfSub cands t : ℚ) + 1)

/-- Term universe of one call: all corpus tokens plus the query tokens. -/
def vocabOf (cands : List String) (p : String) : List (List Char) :=
  (((docsOf cands).map (fun c => tokenize c.data)).flatten ++ tokenize p.data).dedup

/-- TF-IDF weight of term `t` for a token list. -/
def weightOf (cands : List String) (toks : List (List Char)) (t : List Char) : ℚ :=
  (tfSub toks t : ℚ) * idfOf cands t

/-- Dot product of the query vector and a candidate vector. -/
def dotOf (cands : List String) (p : String) (c : String) : ℚ :=
  ((vocabOf cands p).map (fun t =>
    weightOf cands (tokenize p.data) t * weightOf cands (tokenize c.data) t)).sum

/-- Squared Euclidean norm of a TF-IDF vector over the call vocabulary. -/
def normSqOf (cands : List String) (p : String) (toks : List (List Char)) : ℚ :=
  ((vocabOf cands p).map (fun t => (weightOf cands toks t) ^ 2)).sum

/-- Modelled from the spec: the cosine similarity of the TF-IDF vectors of
pattern and candidate (`Database._scan_tables_tf_idf` scoring).  To stay in
exact rational arithmetic the score is the squared cosine, which is
rank-equivalent and zero-equivalent because every weight is nonnegative. -/
def tfidfScoreOf (cands : List String) (p : String) (c : String) : ℚ :=
  if dotOf cands p c = 0 then 0
  else (dotOf cands p c) ^ 2 /
    (normSqOf cands p (tokenize p.data) * normSqOf cands p (tokenize c.data))

/-- Token count of a candidate (the BM25 document length). -/
def dlOf (c : String) : Nat := (tokenize c.data).length

/-- Average document length over the corpus. -/
def avgdlOf (cands : List String) : ℚ :=
  ((((docsOf cands).map dlOf).sum : Nat) : ℚ) / (((docsOf cands).length : Nat) : ℚ)

/-- Exact-membership document frequency for BM25. -/
def dfEx (cands : List String) (t : List Char) : Nat :=
  ((docsOf cands).filter (fun c => (tokenize c.data).contains t)).length

/-- Positive BM25 idf weight: `(N - df + 1/2)/(df + 1/2) + 1`, the
(monotone, always positive) argument of the textbook logarithmic idf. -/
def idfBm25 (cands : List String) (t : List Char) : ℚ :=
  ((((docsOf cands).length : ℚ) - (dfEx cands t : ℚ) + 1/2) / ((dfEx cands t : ℚ) + 1/2)) + 1

/-- One BM25 summand with `k1 = 3/2` and `b = 3/4`. -/
def bm25Term (cands : List String) (c : String) (t : List Char) : ℚ :=
  if (tokenize c.data).count t = 0 then 0
  else idfBm25 cands t * (((tokenize c.data).count t : ℚ) * (5/2)) /
    (((tokenize c.data).count t : ℚ) + (3/2) * (1/4 + (3/4) * ((dlOf c : ℚ) / avgdlOf cands)))

/-- Modelled from the spec: the BM25 score of a candidate
(`Database._scan_tables_bm25` scoring) — the sum over the pattern tokens
that also appear in the candidate token set, with term-frequency
saturation via `k1` and length normalization via `b`. -/
def bm25ScoreOf (cands : List String) (p : String) (c : String) : ℚ :=
  ((tokenize p.data).map (fun t => bm25Term cands c t)).sum

/-! ## Ranking pipeline shared by the three scoring modes -/

/-- One scored candidate: original input index, name, and score. -/
structure REntry where
  idx : Nat
  name : String
  score : ℚ
deriving DecidableEq

/-- Score every candidate, remembering its original index. -/
def mkEntries (score : String → ℚ) : Nat → List String → List REntry
  | _, [] => []
  | i, c :: cs => ⟨i, c, score c⟩ :: mkEntries score (i + 1) cs

/-- Sort key: score descending, original index ascending.  This is the
observational behaviour of Python's stable descending sort by score. -/
def keyLe (a b : REntry) : Bool :=
  decide (b.score < a.score ∨ (a.score = b.score ∧ a.idx ≤ b.idx))

/-- Entries of the Jaro-Winkler mode (every candidate is scored). -/
def jwEntries (cands : List String) (p : String) : List REntry :=
  mkEntries (fun c => jaroWinkler c.data p.data) 0 cands

/-- Exclusion filter of the BM25/TF-IDF modes: drop candidates without
tokens and candidates with score zero. -/
def keepEntry (e : REntry) : Bool :=
  !(tokenize e.name.data).isEmpty && decide (0 < e.score)

/-- Entries of the BM25 mode after exclusions. -/
def bm25Entries (cands : List String) (p : String) : List REntry :=
  (mkEntries (fun c => bm25ScoreOf cands p c) 0 cands).filter keepEntry

/-- Entries of the TF-IDF mode after exclusions. -/
def tfidfEntries (cands : List String) (p : String) : List REntry :=
  (mkEntries (fun c => tfidfScoreOf cands p c) 0 cands).filter keepEntry

/-- Sort the entries, project the names, truncate to `limit`. -/
def rankNames (entries : List REntry) (limit : Nat) : List String :=
  ((sortOrd keyLe entries).map (fun e => e.name)).take limit

/-- Modelled from the spec: `Database._scan_tables_jaro_winkler` — score
every candidate, sort descending with stable ties, truncate. -/
def scan_tables_jaro_winkler (cands : List String) (p : String) (limit : Nat) :
    List String :=
  rankNames (jwEntries cands p) limit

/-- Modelled from the spec: `Database._scan_tables_bm25` — empty query ⇒
empty result; otherwise score, exclude zero-token and zero-score
candidates, sort descending with stable ties, truncate. -/
def scan_tables_bm25 (cands : List String) (p : String) (limit : Nat) : List String :=
  if tokenize p.data = [] then [] else rankNames (bm25Entries cands p) limit

/-- Modelled from the spec: `Database._scan_tables_tf_idf` — empty query ⇒
empty result; otherwise score, exclude zero-token and zero-score
candidates, sort descending with stable ties, truncate. -/
def scan_tables_tf_idf (cands : List String) (p : String) (limit : Nat) : List String :=
  if tokenize p.data = [] then [] else rankNames (tfidfEntries cands p) limit

/-- Modelled from the spec: the closed search-mode enum (`SearchMode` in
`toolfront/models/database.py`). -/
inductive SearchMode where
  | regex
  | bm25
  | jaro_winkler
  | tf_idf
deriving DecidableEq

/-- Modelled from the spec: the unified contract
`rank(candidates, pattern, limit, mode) -> ordered names`. -/
def rank (cands : List String) (p : String) (limit : Nat) :
    SearchMode → Except InvalidPattern (List String)
  | .regex => scan_tables_regex cands p limit
  | .bm25 => .ok (scan_tables_bm25 cands p limit)
  | .jaro_winkler => .ok (scan_tables_jaro_winkler cands p limit)
  | .tf_idf => .ok (scan_tables_tf_idf cands p limit)

/-! ## The tool layer of `toolfront/tools.py` (embedded from the source) -/

/-- Which diagnostic the `except` branch of the search tools selects. -/
inductive SearchDiagnostic where
  | invalidRegex
  | connectFailed
  | searchFailed
deriving DecidableEq

/-- Embedded from `toolfront/tools.py` (`search_tables`/`search_endpoints`
exception handler): the branch taken on a caught exception with text
`emsg`, mirroring
`if "pattern" in str(e).lower() and mode == SearchMode.REGEX: ...
elif "connection" in str(e).lower() or "connect" in str(e).lower(): ...
else: ...`. -/
def classify_search_exception (mode : SearchMode) (emsg : String) : SearchDiagnostic :=
  if hasSubB "pattern".data (lowerChars emsg.data) && (mode == SearchMode.regex) then
    .invalidRegex
  else if hasSubB "connection".data (lowerChars emsg.data) ||
      hasSubB "connect".data (lowerChars emsg.data) then
    .connectFailed
  else .searchFailed

/-- The `ConnectionError` raised by the tool layer. -/
structure ConnectionErr where
  message : String
deriving DecidableEq

/-- Embedded from `toolfront/tools.py::search_tables`: the message of the
`ConnectionError` raised for a caught exception. -/
def search_tables_failure_message (mode : SearchMode) (url pat emsg : String) : String :=
  match classify_search_exception mode emsg with
  | .invalidRegex =>
      "Failed to search " ++ url ++ " - Invalid regex pattern: " ++ pat ++
        ". Please try a different pattern or use a different search mode."
  | .connectFailed => "Failed to connect to " ++ url ++ " - " ++ emsg
  | .searchFailed => "Failed to search tables in " ++ url ++ " - " ++ emsg

/-- Embedded from `toolfront/tools.py::search_endpoints`: same handler,
with the final branch mentioning endpoints. -/
def search_endpoints_failure_message (mode : SearchMode) (url pat emsg : String) : String :=
  match classify_search_exception mode emsg with
  | .invalidRegex =>
      "Failed to search " ++ url ++ " - Invalid regex pattern: " ++ pat ++
        ". Please try a different pattern or use a different search mode."
  | .connectFailed => "Failed to connect to " ++ url ++ " - " ++ emsg
  | .searchFailed => "Failed to search endpoints in " ++ url ++ " - " ++ emsg

/-- Embedded from `toolfront/tools.py::search_tables`: the whole `try`
block is abstracted as its outcome `body` (either the search result or the
text of the exception raised inside); the `except` clause re-raises every
exception as a `ConnectionError`. -/
def search_tables (body : Except String (List String)) (mode : SearchMode)
    (url pat : String) : Except ConnectionErr (List String) :=
  match body with
  | .ok r => .ok r
  | .error e => .error ⟨search_tables_failure_message mode url pat e⟩

/-- Embedded from `toolfront/tools.py::search_endpoints`, same shape. -/
def search_endpoints (body : Except String (List String)) (mode : SearchMode)
    (url pat : String) : Except ConnectionErr (List String) :=
  match body with
  | .ok r => .ok r
  | .error e => .error ⟨search_endpoints_failure_message mode url pat e⟩

/-! ## Properties of the ranking pipeline -/

theorem keyLe_total : ∀ a b : REntry, keyLe a b = false → keyLe b a = true := by
  intro a b h
  simp only [keyLe, decide_eq_false_iff_not] at h
  push_neg at h
  obtain ⟨h1, h2⟩ := h
  simp only [keyLe, decide_eq_true_eq]
  rcases eq_or_lt_of_le h1 with heq | hlt
  · exact Or.inr ⟨heq.symm, le_of_lt (h2 heq)⟩
  · exact Or.inl hlt

theorem keyLe_trans : ∀ a b c : REntry,
    keyLe a b = true → keyLe b c = true → keyLe a c = true := by
  intro a b c h1 h2
  simp only [keyLe, decide_eq_true_eq] at *
  rcases h1 with h1 | ⟨he1, hi1⟩
  · rcases h2 with h2 | ⟨he2, hi2⟩
    · exact Or.inl (lt_trans h2 h1)
    · exact Or.inl (he2 ▸ h1)
  · rcases h2 with h2 | ⟨he2, hi2⟩
    · exact Or.inl (he1 ▸ h2)
    · exact Or.inr ⟨he1.trans he2, le_trans hi1 hi2⟩

theorem mkEntries_mem {score : String → ℚ} :
    ∀ {l : List String} {i : Nat} {e : REntry}, e ∈ mkEntries score i l →
      e.name ∈ l ∧ e.score = score e.name ∧ i ≤ e.idx := by
  intro l
  induction l with
  | nil => intro i e he; simp [mkEntries] at he
  | cons c cs ih =>
    intro i e he
    rw [mkEntries] at he
    rcases List.mem_cons.mp he with rfl | hrest
    · exact ⟨by simp, rfl, le_refl i⟩
    · obtain ⟨h1, h2, h3⟩ := ih hrest
      exact ⟨by simp [h1], h2, by omega⟩

theorem mkEntries_idx_pairwise {score : String → ℚ} :
    ∀ (l : List String) (i : Nat),
      ((mkEntries score i l).map (fun e => e.idx)).Pairwise (· < ·) := by
  intro l
  induction l with
  | nil => intro i; simp [mkEntries]
  | cons c cs ih =>
    intro i
    rw [mkEntries, List.map_cons, List.pairwise_cons]
    refine ⟨?_, ih (i + 1)⟩
    intro x hx
    rcases List.mem_map.mp hx with ⟨e, he, rfl⟩
    have := (mkEntries_mem he).2.2
    show i < e.idx
    omega

theorem mkEntries_exists {score : String → ℚ} :
    ∀ {l : List String} {c : String}, c ∈ l → ∀ i : Nat,
      ∃ e ∈ mkEntries score i l, e.name = c ∧ e.score = score c := by
  intro l
  induction l with
  | nil => intro c hc; cases hc
  | cons d ds ih =>
    intro c hc i
    rcases List.mem_cons.mp hc with rfl | hrest
    · exact ⟨⟨i, c, score c⟩, by rw [mkEntries]; simp, rfl, rfl⟩
    · obtain ⟨e, he, h1, h2⟩ := ih hrest (i + 1)
      exact ⟨e, by rw [mkEntries]; exact List.mem_cons_of_mem _ he, h1, h2⟩

theorem rankNames_length_le (entries : List REntry) (limit : Nat) :
    (rankNames entries limit).length ≤ limit := by
  rw [rankNames]
  have := List.length_take limit ((sortOrd keyLe entries).map (fun e => e.name))
  omega

theorem rankNames_zero (entries : List REntry) : rankNames entries 0 = [] := by
  simp [rankNames]

theorem mem_rankNames {entries : List REntry} {limit : Nat} {x : String}
    (hx : x ∈ rankNames entries limit) : ∃ e ∈ entries, e.name = x := by
  rw [rankNames] at hx
  have hx' := List.take_subset _ _ hx
  rcases List.mem_map.mp hx' with ⟨e, he, rfl⟩
  exact ⟨e, (sortOrd_perm keyLe entries).subset he, rfl⟩

theorem sortOrd_keyLe_tie {entries : List REntry}
    (hnd : (entries.map (fun e => e.idx)).Nodup) :
    (sortOrd keyLe entries).Pairwise (fun a b => a.score = b.score → a.idx < b.idx) := by
  have hp := sortOrd_pairwise keyLe keyLe_total keyLe_trans entries
  have hnd' : ((sortOrd keyLe entries).map (fun e => e.idx)).Nodup :=
    ((sortOrd_perm keyLe entries).map (fun e => e.idx)).nodup_iff.mpr hnd
  have hne : (sortOrd keyLe entries).Pairwise (fun a b => a.idx ≠ b.idx) :=
    List.pairwise_map.mp hnd'
  refine (hp.and hne).imp ?_
  rintro a b ⟨hle, hnei⟩ hsc
  simp only [keyLe, decide_eq_true_eq] at hle
  rcases hle with hlt | ⟨-, hile⟩
  · exact absurd (hsc ▸ hlt) (lt_irrefl _)
  · exact lt_of_le_of_ne hile hnei

theorem sortOrd_keyLe_head_score {entries : List REntry} {e0 : REntry} {rest : List REntry}
    (hs : sortOrd keyLe entries = e0 :: rest) : ∀ e ∈ entries, e.score ≤ e0.score := by
  intro e he
  have hperm := sortOrd_perm keyLe entries
  have he' : e ∈ sortOrd keyLe entries := hperm.mem_iff.mpr he
  rw [hs] at he'
  rcases List.mem_cons.mp he' with rfl | hrest
  · exact le_refl _
  · have hp := sortOrd_pairwise keyLe keyLe_total keyLe_trans entries
    rw [hs, List.pairwise_cons] at hp
    have hle := hp.1 e hrest
    simp only [keyLe, decide_eq_true_eq] at hle
    rcases hle with h | ⟨h, -⟩
    · exact le_of_lt h
    · exact le_of_eq h.symm

theorem jwEntries_mem {cands : List String} {p : String} {e : REntry}
    (he : e ∈ jwEntries cands p) :
    e.name ∈ cands ∧ e.score = jaroWinkler e.name.data p.data := by
  obtain ⟨h1, h2, -⟩ := mkEntries_mem he
  exact ⟨h1, h2⟩

theorem jwEntries_idx_nodup (cands : List String) (p : String) :
    ((jwEntries cands p).map (fun e => e.idx)).Nodup :=
  (mkEntries_idx_pairwise cands 0).imp Nat.ne_of_lt

theorem bm25Entries_mem {cands : List String} {p : String} {e : REntry}
    (he : e ∈ bm25Entries cands p) :
    e.name ∈ cands ∧ e.score = bm25ScoreOf cands p e.name ∧
      tokenize e.name.data ≠ [] ∧ 0 < e.score := by
  rw [bm25Entries, List.mem_filter] at he
  obtain ⟨hmem, hkeep⟩ := he
  obtain ⟨h1, h2, -⟩ := mkEntries_mem hmem
  simp only [keepEntry, Bool.and_eq_true, Bool.not_eq_true', decide_eq_true_eq] at hkeep
  refine ⟨h1, h2, ?_, hkeep.2⟩
  intro hnil
  rw [hnil] at hkeep
  simp at hkeep

theorem tfidfEntries_mem {cands : List String} {p : String} {e : REntry}
    (he : e ∈ tfidfEntries cands p) :
    e.name ∈ cands ∧ e.score = tfidfScoreOf cands p e.name ∧
      tokenize e.name.data ≠ [] ∧ 0 < e.score := by
  rw [tfidfEntries, List.mem_filter] at he
  obtain ⟨hmem, hkeep⟩ := he
  obtain ⟨h1, h2, -⟩ := mkEntries_mem hmem
  simp only [keepEntry, Bool.and_eq_true, Bool.not_eq_true', decide_eq_true_eq] at hkeep
  refine ⟨h1, h2, ?_, hkeep.2⟩
  intro hnil
  rw [hnil] at hkeep
  simp at hkeep

theorem bm25Entries_idx_nodup (cands : List String) (p : String) :
    ((bm25Entries cands p).map (fun e => e.idx)).Nodup := by
  have hsub : List.Sublist (bm25Entries cands p)
      (mkEntries (fun c => bm25ScoreOf cands p c) 0 cands) := List.filter_sublist _
  have hnd : ((mkEntries (fun c => bm25ScoreOf cands p c) 0 cands).map
      (fun e => e.idx)).Nodup := (mkEntries_idx_pairwise cands 0).imp Nat.ne_of_lt
  exact hnd.sublist (hsub.map (fun e => e.idx))

theorem tfidfEntries_idx_nodup (cands : List String) (p : String) :
    ((tfidfEntries cands p).map (fun e => e.idx)).Nodup := by
  have hsub : List.Sublist (tfidfEntries cands p)
      (mkEntries (fun c => tfidfScoreOf cands p c) 0 cands) := List.filter_sublist _
  have hnd : ((mkEntries (fun c => tfidfScoreOf cands p c) 0 cands).map
      (fun e => e.idx)).Nodup := (mkEntries_idx_pairwise cands 0).imp Nat.ne_of_lt
  exact hnd.sublist (hsub.map (fun e => e.idx))

/-! ## Positivity facts about the two token-based scores -/

theorem hasSubB_refl (t : List Char) : hasSubB t t = true :=
  hasSubB_iff.mpr ⟨[], [], by simp⟩

theorem tfSub_pos_of_mem {toks : List (List Char)} {t : List Char} (ht : t ∈ toks) :
    0 < tfSub toks t := by
  rw [tfSub]
  have hmem : t ∈ toks.filter (fun tok => hasSubB t tok) :=
    List.mem_filter.mpr ⟨ht, hasSubB_refl t⟩
  exact List.length_pos.mpr (List.ne_nil_of_mem hmem)

theorem idfOf_pos (cands : List String) (t : List Char) : 0 < idfOf cands t := by
  rw [idfOf]
  positivity

theorem weightOf_nonneg (cands : List String) (toks : List (List Char)) (t : List Char) :
    0 ≤ weightOf cands toks t := by
  rw [weightOf]
  have h1 : (0 : ℚ) ≤ (tfSub toks t : ℚ) := by positivity
  exact mul_nonneg h1 (le_of_lt (idfOf_pos cands t))

theorem weightOf_pos_of_mem {cands : List String} {toks : List (List Char)}
    {t : List Char} (ht : t ∈ toks) : 0 < weightOf cands toks t := by
  rw [weightOf]
  have h1 : (0 : ℚ) < (tfSub toks t : ℚ) := by
    exact_mod_cast tfSub_pos_of_mem ht
  exact mul_pos h1 (idfOf_pos cands t)

theorem mem_vocabOf_of_query {cands : List String} {p : String} {t : List Char}
    (ht : t ∈ tokenize p.data) : t ∈ vocabOf cands p := by
  rw [vocabOf, List.mem_dedup]
  exact List.mem_append_right _ ht

theorem dotOf_nonneg (cands : List String) (p : String) (c : String) :
    0 ≤ dotOf cands p c := by
  rw [dotOf]
  refine List.sum_nonneg ?_
  intro x hx
  rcases List.mem_map.mp hx with ⟨t, -, rfl⟩
  exact mul_nonneg (weightOf_nonneg cands _ t) (weightOf_nonneg cands _ t)

theorem dotOf_pos_of_shared {cands : List String} {p c : String} {t0 : List Char}
    (hq : t0 ∈ tokenize p.data) (hc : t0 ∈ tokenize c.data) :
    0 < dotOf cands p c := by
  rw [dotOf]
  have hv : t0 ∈ vocabOf cands p := mem_vocabOf_of_query hq
  have hterm : (0 : ℚ) < weightOf cands (tokenize p.data) t0 *
      weightOf cands (tokenize c.data) t0 :=
    mul_pos (weightOf_pos_of_mem hq) (weightOf_pos_of_mem hc)
  have hmem : weightOf cands (tokenize p.data) t0 * weightOf cands (tokenize c.data) t0 ∈
      (vocabOf cands p).map (fun t =>
        weightOf cands (tokenize p.data) t * weightOf cands (tokenize c.data) t) :=
    List.mem_map_of_mem _ hv
  have hle := single_le_sumQ ?_ hmem
  · linarith
  · intro x hx
    rcases List.mem_map.mp hx with ⟨t, -, rfl⟩
    exact mul_nonneg (weightOf_nonneg cands _ t) (weightOf_nonneg cands _ t)

theorem normSqOf_pos_of_mem {cands : List String} {p : String}
    {toks : List (List Char)} {t0 : List Char}
    (hv : t0 ∈ vocabOf cands p) (ht : t0 ∈ toks) : 0 < normSqOf cands p toks := by
  rw [normSqOf]
  have hterm : (0 : ℚ) < (weightOf cands toks t0) ^ 2 :=
    pow_pos (weightOf_pos_of_mem ht) 2
  have hmem : (weightOf cands toks t0) ^ 2 ∈
      (vocabOf cands p).map (fun t => (weightOf cands toks t) ^ 2) :=
    List.mem_map_of_mem _ hv
  have hle := single_le_sumQ ?_ hmem
  · linarith
  · intro x hx
    rcases List.mem_map.mp hx with ⟨t, -, rfl⟩
    positivity

theorem tfidfScoreOf_pos_of_shared {cands : List String} {p c : String} {t0 : List Char}
    (hq : t0 ∈ tokenize p.data) (hc : t0 ∈ tokenize c.data) :
    0 < tfidfScoreOf cands p c := by
  have hd : 0 < dotOf cands p c := dotOf_pos_of_shared hq hc
  rw [tfidfScoreOf, if_neg (ne_of_gt hd)]
  have h1 : 0 < (dotOf cands p c) ^ 2 := pow_pos hd 2
  have h2 : 0 < normSqOf cands p (tokenize p.data) :=
    normSqOf_pos_of_mem (mem_vocabOf_of_query hq) hq
  have h3 : 0 < normSqOf cands p (tokenize c.data) :=
    normSqOf_pos_of_mem (mem_vocabOf_of_query hq) hc
  exact div_pos h1 (mul_pos h2 h3)

theorem dfEx_le (cands : List String) (t : List Char) :
    dfEx cands t ≤ (docsOf cands).length :=
  List.length_filter_le _ _

theorem idfBm25_pos (cands : List String) (t : List Char) : 0 < idfBm25 cands t := by
  rw [idfBm25]
  have hle : (dfEx cands t : ℚ) ≤ ((docsOf cands).length : ℚ) := by
    exact_mod_cast dfEx_le cands t
  have hnum : (0 : ℚ) < ((docsOf cands).length : ℚ) - (dfEx cands t : ℚ) + 1/2 := by
    linarith
  have hden : (0 : ℚ) < (dfEx cands t : ℚ) + 1/2 := by positivity
  have := div_pos hnum hden
  linarith

theorem avgdlOf_nonneg (cands : List String) : 0 ≤ avgdlOf cands := by
  rw [avgdlOf]
  positivity

theorem bm25Term_nonneg (cands : List String) (c : String) (t : List Char) :
    0 ≤ bm25Term cands c t := by
  rw [bm25Term]
  split_ifs with h
  · exact le_refl 0
  · have hcnt : (0 : ℚ) < ((tokenize c.data).count t : ℚ) := by
      have : 0 < (tokenize c.data).count t := Nat.pos_of_ne_zero h
      exact_mod_cast this
    have hratio : (0 : ℚ) ≤ (dlOf c : ℚ) / avgdlOf cands :=
      div_nonneg (by positivity) (avgdlOf_nonneg cands)
    have hden : (0 : ℚ) < ((tokenize c.data).count t : ℚ) +
        (3/2) * (1/4 + (3/4) * ((dlOf c : ℚ) / avgdlOf cands)) := by
      nlinarith
    have hnum : (0 : ℚ) < idfBm25 cands t * (((tokenize c.data).count t : ℚ) * (5/2)) :=
      mul_pos (idfBm25_pos cands t) (by linarith)
    positivity

theorem bm25Term_pos_of_mem {cands : List String} {c : String} {t : List Char}
    (ht : t ∈ tokenize c.data) : 0 < bm25Term cands c t := by
  have hcnt0 : (tokenize c.data).count t ≠ 0 := by
    have := List.count_pos_iff.mpr ht
    omega
  rw [bm25Term, if_neg hcnt0]
  have hcnt : (0 : ℚ) < ((tokenize c.data).count t : ℚ) := by
    have : 0 < (tokenize c.data).count t := Nat.pos_of_ne_zero hcnt0
    exact_mod_cast this
  have hratio : (0 : ℚ) ≤ (dlOf c : ℚ) / avgdlOf cands :=
    div_nonneg (by positivity) (avgdlOf_nonneg cands)
  have hden : (0 : ℚ) < ((tokenize c.data).count t : ℚ) +
      (3/2) * (1/4 + (3/4) * ((dlOf c : ℚ) / avgdlOf cands)) := by
    nlinarith
  have hnum : (0 : ℚ) < idfBm25 cands t * (((tokenize c.data).count t : ℚ) * (5/2)) :=
    mul_pos (idfBm25_pos cands t) (by linarith)
  exact div_pos hnum hden

theorem bm25Term_eq_zero_iff (cands : List String) (c : String) (t : List Char) :
    bm25Term cands c t = 0 ↔ t ∉ tokenize c.data := by
  constructor
  · intro h0 hmem
    exact absurd h0 (ne_of_gt (bm25Term_pos_of_mem hmem))
  · intro hnot
    have : (tokenize c.data).count t = 0 := by
      rw [List.count_eq_zero]
      simpa using hnot
    rw [bm25Term, if_pos this]

theorem bm25ScoreOf_pos_of_shared {cands : List String} {p c : String} {t0 : List Char}
    (hq : t0 ∈ tokenize p.data) (hc : t0 ∈ tokenize c.data) :
    0 < bm25ScoreOf cands p c := by
  rw [bm25ScoreOf]
  have hmem : bm25Term cands c t0 ∈
      (tokenize p.data).map (fun t => bm25Term cands c t) :=
    List.mem_map_of_mem _ hq
  have hle := single_le_sumQ ?_ hmem
  · have hb : 0 < bm25Term cands c t0 := bm25Term_pos_of_mem hc
    linarith
  · intro x hx
    rcases List.mem_map.mp hx with ⟨t, -, rfl⟩
    exact bm25Term_nonneg cands c t

theorem bm25ScoreOf_eq_zero_iff (cands : List String) (p c : String) :
    bm25ScoreOf cands p c = 0 ↔ ∀ t ∈ tokenize p.data, t ∉ tokenize c.data := by
  rw [bm25ScoreOf]
  have hnn : ∀ x ∈ (tokenize p.data).map (fun t => bm25Term cands c t), (0 : ℚ) ≤ x := by
    intro x hx
    rcases List.mem_map.mp hx with ⟨t, -, rfl⟩
    exact bm25Term_nonneg cands c t
  rw [sumQ_eq_zero_iff hnn]
  constructor
  · intro h t ht
    exact (bm25Term_eq_zero_iff cands c t).mp (h _ (List.mem_map_of_mem _ ht))
  · intro h x hx
    rcases List.mem_map.mp hx with ⟨t, ht, rfl⟩
    exact (bm25Term_eq_zero_iff cands c t).mpr (h t ht)

/-! ## Miscellaneous helpers for the claim statements -/

theorem string_data_inj {a b : String} (h : a.data = b.data) : a = b := by
  cases a
  cases b
  exact congrArg String.mk h

/-- Equal-score entries appear in ascending original-index order. -/
def tieOrdered (l : List REntry) : Prop :=
  l.Pairwise (fun a b => a.score = b.score → a.idx < b.idx)

/-! ## The claims -/

/-- Claim C1, counterexample to the claim as stated: in regex mode an
invalid pattern raises `InvalidPattern` even at `limit = 0`, so
`limit = 0` does not yield an empty result *without error* for every
pattern. -/
theorem rank_limit_zero_cex : rank [] "(" 0 SearchMode.regex ≠ Except.ok [] := by
  have h : rank [] "(" 0 SearchMode.regex = Except.error ⟨"("⟩ := rfl
  rw [h]
  intro hcontra
  exact Except.noConfusion hcontra

/-- Claim C1 (amended): whenever `rank` returns a result, the result has
length at most `limit`, every returned name occurs in the input candidate
list, and `limit = 0` yields the empty result; only regex mode with a
non-compiling pattern returns no result. -/
theorem rank_ok_bounds :
    ∀ (mode : SearchMode) (cands : List String) (p : String) (limit : Nat)
      (res : List String),
      rank cands p limit mode = Except.ok res →
      res.length ≤ limit ∧ (∀ x ∈ res, x ∈ cands) ∧ (limit = 0 → res = []) := by
  have hgen : ∀ (cands : List String) (limit : Nat) (entries : List REntry),
      (∀ e ∈ entries, e.name ∈ cands) →
      (rankNames entries limit).length ≤ limit ∧
        (∀ x ∈ rankNames entries limit, x ∈ cands) ∧
        (limit = 0 → rankNames entries limit = []) := by
    intro cands limit entries hmem
    refine ⟨rankNames_length_le entries limit, ?_, ?_⟩
    · intro x hx
      obtain ⟨e, he, rfl⟩ := mem_rankNames hx
      exact hmem e he
    · rintro rfl
      exact rankNames_zero entries
  intro mode cands p limit res hres
  cases mode with
  | regex =>
    simp only [rank, scan_tables_regex] at hres
    cases hp : parseRegex p with
    | none => rw [hp] at hres; exact absurd hres (by simp)
    | some r =>
      rw [hp] at hres
      injection hres with hres
      subst hres
      refine ⟨?_, ?_, ?_⟩
      · have := List.length_take limit (cands.filter (fun c => qualifiesB r c))
        omega
      · intro x hx
        exact (List.mem_filter.mp (List.take_subset _ _ hx)).1
      · rintro rfl
        simp
  | bm25 =>
    simp only [rank] at hres
    injection hres with hres
    rw [scan_tables_bm25] at hres
    split_ifs at hres with hq
    · subst hres
      exact ⟨by simp, by simp, fun _ => rfl⟩
    · subst hres
      exact hgen cands limit (bm25Entries cands p) (fun e he => (bm25Entries_mem he).1)
  | jaro_winkler =>
    simp only [rank] at hres
    injection hres with hres
    rw [scan_tables_jaro_winkler] at hres
    subst hres
    exact hgen cands limit (jwEntries cands p) (fun e he => (jwEntries_mem he).1)
  | tf_idf =>
    simp only [rank] at hres
    injection hres with hres
    rw [scan_tables_tf_idf] at hres
    split_ifs at hres with hq
    · subst hres
      exact ⟨by simp, by simp, fun _ => rfl⟩
    · subst hres
      exact hgen cands limit (tfidfEntries cands p) (fun e he => (tfidfEntries_mem he).1)

/-- Witness for the amended claim C1 at a concrete input. -/
theorem rank_ok_bounds_witness :
    rank ["users"] "user" 2 SearchMode.tf_idf = Except.ok ["users"] ∧
      (["users"] : List String).length ≤ 2 ∧
      (∀ x ∈ (["users"] : List String), x ∈ (["users"] : List String)) ∧
      ((2 : Nat) = 0 → (["users"] : List String) = []) := by
  have h0 : scan_tables_tf_idf ["users"] "user" 2 = ["users"] := by decide
  have h : rank ["users"] "user" 2 SearchMode.tf_idf = Except.ok ["users"] := by
    show Except.ok (scan_tables_tf_idf ["users"] "user" 2) = Except.ok ["users"]
    rw [h0]
  exact ⟨h, rank_ok_bounds SearchMode.tf_idf ["users"] "user" 2 ["users"] h⟩

/-- Claim C2: in regex mode a non-compiling pattern raises
`InvalidPattern`, while a compiling pattern that matches no candidate
returns the empty list without error, so compile failure and zero-result
success are distinguishable. -/
theorem regex_invalid_vs_empty :
    ∀ (cands : List String) (p : String) (limit : Nat),
      (parseRegex p = none → scan_tables_regex cands p limit = Except.error ⟨p⟩) ∧
      (∀ r, parseRegex p = some r → (∀ c ∈ cands, ¬ Qualifies r c) →
        scan_tables_regex cands p limit = Except.ok []) := by
  intro cands p limit
  constructor
  · intro h
    rw [scan_tables_regex, h]
  · intro r hr hno
    rw [scan_tables_regex, hr]
    show Except.ok ((cands.filter (fun c => qualifiesB r c)).take limit) = Except.ok []
    have hfil : cands.filter (fun c => qualifiesB r c) = [] := by
      rw [List.filter_eq_nil_iff]
      intro c hc
      exact fun hq => hno c hc (qualifiesB_iff.mp hq)
    rw [hfil]
    simp

/-- Witness for claim C2 at concrete inputs. -/
theorem regex_invalid_vs_empty_witness :
    scan_tables_regex ["users"] "(" 5 = Except.error ⟨"("⟩ ∧
      scan_tables_regex ["users"] "zzz" 5 = Except.ok [] := by
  constructor
  · exact (regex_invalid_vs_empty ["users"] "(" 5).1 rfl
  · refine (regex_invalid_vs_empty ["users"] "zzz" 5).2 _ rfl ?_
    intro c hc
    rcases List.mem_singleton.mp hc with rfl
    intro hq
    exact absurd (qualifiesB_iff.mpr hq) (by decide)

/-- Claim C3: in regex mode the result is exactly the candidates on which
the case-insensitively compiled expression finds a match anywhere
(declarative semantics `Qualifies`), in input order, truncated to
`limit`; and the pattern `USER` matches the candidate `users`. -/
theorem regex_semantics :
    ∀ (cands : List String) (p : String) (limit : Nat) (r : Regex),
      parseRegex p = some r →
      scan_tables_regex cands p limit =
        Except.ok ((cands.filter (fun c => decide (Qualifies r c))).take limit) ∧
      (∀ c : String, qualifiesB r c = true ↔ Qualifies r c) ∧
      (∃ ru, parseRegex "USER" = some ru ∧ Qualifies ru "users") := by
  intro cands p limit r hr
  refine ⟨?_, fun c => qualifiesB_iff, ?_⟩
  · rw [scan_tables_regex, hr]
    show Except.ok ((cands.filter (fun c => qualifiesB r c)).take limit) =
      Except.ok ((cands.filter (fun c => decide (Qualifies r c))).take limit)
    have hfil : cands.filter (fun c => qualifiesB r c) =
        cands.filter (fun c => decide (Qualifies r c)) := by
      apply List.filter_congr
      intro c hc
      by_cases hQ : Qualifies r c
      · rw [qualifiesB_iff.mpr hQ, decide_eq_true hQ]
      · have h1 : qualifiesB r c = false := by
          rw [← Bool.not_eq_true]
          exact fun hq' => hQ (qualifiesB_iff.mp hq')
        rw [h1, decide_eq_false hQ]
    rw [hfil]
  · exact ⟨_, rfl, qualifiesB_iff.mp (by decide)⟩

/-- Witness for claim C3 at a concrete input. -/
theorem regex_semantics_witness :
    ∃ r, parseRegex ".*_data" = some r ∧
      scan_tables_regex ["users", "user_profiles", "customer_data", "payroll_data",
          "orders"] ".*_data" 10 =
        Except.ok (((["users", "user_profiles", "customer_data", "payroll_data",
          "orders"] : List String).filter (fun c => decide (Qualifies r c))).take 10) := by
  refine ⟨_, rfl, ?_⟩
  exact (regex_semantics _ ".*_data" 10 _ rfl).1

/-- Claim C4: in Jaro-Winkler mode an exact (case-sensitive) match scores
1.0 and is ranked first whenever present; and for candidates
`["users","user_profiles"]` with pattern `"user"`, `users` is ranked
strictly before `user_profiles`. -/
theorem jw_exact_match_ranks_first :
    ∀ (cands : List String) (p : String) (limit : Nat),
      p ∈ cands → 1 ≤ limit →
      jaroWinkler p.data p.data = 1 ∧
      (scan_tables_jaro_winkler cands p limit).head? = some p ∧
      scan_tables_jaro_winkler ["users", "user_profiles"] "user" 10 =
        ["users", "user_profiles"] := by
  intro cands p limit hmem hlim
  refine ⟨jaroWinkler_self p.data, ?_, by decide⟩
  obtain ⟨ep, hep, hname, hscore⟩ :
      ∃ e ∈ mkEntries (fun c => jaroWinkler c.data p.data) 0 cands,
        e.name = p ∧ e.score = jaroWinkler p.data p.data :=
    mkEntries_exists hmem 0
  have hepj : ep ∈ jwEntries cands p := hep
  have hep1 : ep.score = 1 := by rw [hscore, jaroWinkler_self]
  cases hs : sortOrd keyLe (jwEntries cands p) with
  | nil =>
    have hlen := (sortOrd_perm keyLe (jwEntries cands p)).length_eq
    rw [hs] at hlen
    have : jwEntries cands p = [] := List.length_eq_zero.mp hlen.symm
    rw [this] at hepj
    cases hepj
  | cons e0 rest =>
    have hmax := sortOrd_keyLe_head_score hs ep hepj
    have he0mem : e0 ∈ jwEntries cands p := by
      refine (sortOrd_perm keyLe _).subset ?_
      rw [hs]
      exact List.mem_cons_self e0 rest
    obtain ⟨-, hsc0⟩ := jwEntries_mem he0mem
    have hle1 : e0.score ≤ 1 := hsc0 ▸ jaroWinkler_le_one _ _
    have hge1 : (1 : ℚ) ≤ e0.score := hep1 ▸ hmax
    have he0score : jaroWinkler e0.name.data p.data = 1 := by
      rw [← hsc0]
      linarith
    have he0name : e0.name = p := string_data_inj (jaroWinkler_eq_one_imp he0score)
    rw [scan_tables_jaro_winkler, rankNames, hs]
    cases limit with
    | zero => omega
    | succ n =>
      rw [List.map_cons, List.take_succ_cons]
      simp [he0name]

/-- Witness for claim C4 at a concrete input. -/
theorem jw_exact_match_ranks_first_witness :
    jaroWinkler "users".data "users".data = 1 ∧
      (scan_tables_jaro_winkler ["orders", "users"] "users" 3).head? = some "users" ∧
      scan_tables_jaro_winkler ["users", "user_profiles"] "user" 10 =
        ["users", "user_profiles"] :=
  jw_exact_match_ranks_first ["orders", "users"] "users" 3 (by simp) (by omega)

/-- Claim C5: in BM25 and TF-IDF modes, zero-token candidates and
zero-score candidates never appear in the result (a BM25 score is zero
exactly when no pattern token occurs in the candidate token set); the
all-separator candidate list yields the empty result, as does an empty
candidate list. -/
theorem token_modes_exclusions :
    ∀ (cands : List String) (p : String) (limit : Nat) (c : String),
      (c ∈ scan_tables_bm25 cands p limit →
        tokenize c.data ≠ [] ∧ 0 < bm25ScoreOf cands p c) ∧
      (c ∈ scan_tables_tf_idf cands p limit →
        tokenize c.data ≠ [] ∧ 0 < tfidfScoreOf cands p c) ∧
      (bm25ScoreOf cands p c = 0 ↔ ∀ t ∈ tokenize p.data, t ∉ tokenize c.data) ∧
      scan_tables_bm25 ["___", "...", "---"] "users" 10 = [] ∧
      scan_tables_tf_idf ["___", "...", "---"] "users" 10 = [] ∧
      scan_tables_bm25 [] "users" 10 = [] ∧
      scan_tables_tf_idf [] "users" 10 = [] := by
  intro cands p limit c
  refine ⟨?_, ?_, bm25ScoreOf_eq_zero_iff cands p c, by decide, by decide, by decide,
    by decide⟩
  · intro hc
    rw [scan_tables_bm25] at hc
    split_ifs at hc with hq
    · simp at hc
    · obtain ⟨e, he, rfl⟩ := mem_rankNames hc
      obtain ⟨-, hsc, htok, hpos⟩ := bm25Entries_mem he
      exact ⟨htok, hsc ▸ hpos⟩
  · intro hc
    rw [scan_tables_tf_idf] at hc
    split_ifs at hc with hq
    · simp at hc
    · obtain ⟨e, he, rfl⟩ := mem_rankNames hc
      obtain ⟨-, hsc, htok, hpos⟩ := tfidfEntries_mem he
      exact ⟨htok, hsc ▸ hpos⟩

/-- Witness for claim C5 at a concrete input. -/
theorem token_modes_exclusions_witness :
    tokenize "users".data ≠ [] ∧ 0 < bm25ScoreOf ["users"] "users" "users" :=
  (token_modes_exclusions ["users"] "users" 5 "users").1 (by decide)

/-- Claim C6: in TF-IDF mode an empty pattern tokenizes to nothing and
always yields the empty result, while a purely-whitespace pattern is one
literal query token (also handled totally, without error), and the two
cases can return different sets for the same candidate list. -/
theorem tfidf_empty_vs_whitespace :
    (∀ (cands : List String) (limit : Nat), scan_tables_tf_idf cands "" limit = []) ∧
      tokenize "   ".data = ["   ".data] ∧
      scan_tables_tf_idf ["a   b"] "   " 5 = ["a   b"] ∧
      scan_tables_tf_idf ["a   b"] "" 5 = [] := by
  refine ⟨?_, by decide, by decide, by decide⟩
  intro cands limit
  rw [scan_tables_tf_idf, if_pos]
  rfl

/-- Claim C7: in TF-IDF mode a single-candidate list sharing a token with
the (non-empty) query returns that candidate as the whole result; in
particular `["users"]` against `"user"` returns `["users"]`. -/
theorem tfidf_single_candidate :
    (∀ (c p : String) (limit : Nat), 1 ≤ limit →
      (∃ t, t ∈ tokenize p.data ∧ t ∈ tokenize c.data) →
      scan_tables_tf_idf [c] p limit = [c]) ∧
      scan_tables_tf_idf ["users"] "user" 10 = ["users"] := by
  constructor
  · rintro c p limit hlim ⟨t0, hq, hc⟩
    have hqne : tokenize p.data ≠ [] := List.ne_nil_of_mem hq
    have hcne : tokenize c.data ≠ [] := List.ne_nil_of_mem hc
    rw [scan_tables_tf_idf, if_neg hqne]
    have hscore : 0 < tfidfScoreOf [c] p c := tfidfScoreOf_pos_of_shared hq hc
    have hiE : (tokenize c.data).isEmpty = false := by
      cases htok : tokenize c.data with
      | nil => exact absurd htok hcne
      | cons a as => rfl
    have hkeep : keepEntry ⟨0, c, tfidfScoreOf [c] p c⟩ = true := by
      simp only [keepEntry, Bool.and_eq_true, Bool.not_eq_true', decide_eq_true_eq]
      exact ⟨hiE, hscore⟩
    have hent : tfidfEntries [c] p = [⟨0, c, tfidfScoreOf [c] p c⟩] := by
      show (mkEntries (fun c' => tfidfScoreOf [c] p c') 0 [c]).filter keepEntry = _
      rw [mkEntries, mkEntries, List.filter_cons, if_pos hkeep]
      rfl
    rw [rankNames, hent]
    cases limit with
    | zero => omega
    | succ n =>
      show ((insertOrd keyLe ⟨0, c, tfidfScoreOf [c] p c⟩ []).map
        (fun e => e.name)).take (n + 1) = [c]
      rw [insertOrd]
      simp
  · decide

/-- Witness for claim C7 at a concrete input. -/
theorem tfidf_single_candidate_witness :
    scan_tables_tf_idf ["users"] "users" 3 = ["users"] :=
  tfidf_single_candidate.1 "users" "users" 3 (by omega)
    ⟨"users".data, by decide, by decide⟩

/-- Claim C8: in every scoring mode, candidates with equal scores keep
their original input order in the ranked entry list (from which each
mode's result is the name projection truncated to `limit`). -/
theorem stable_tie_break :
    ∀ (cands : List String) (p : String),
      tieOrdered (sortOrd keyLe (jwEntries cands p)) ∧
      tieOrdered (sortOrd keyLe (bm25Entries cands p)) ∧
      tieOrdered (sortOrd keyLe (tfidfEntries cands p)) ∧
      (∀ limit, scan_tables_jaro_winkler cands p limit =
        ((sortOrd keyLe (jwEntries cands p)).map (fun e => e.name)).take limit) :=
  fun cands p =>
    ⟨sortOrd_keyLe_tie (jwEntries_idx_nodup cands p),
     sortOrd_keyLe_tie (bm25Entries_idx_nodup cands p),
     sortOrd_keyLe_tie (tfidfEntries_idx_nodup cands p),
     fun _ => rfl⟩

/-- Witness for claim C8 at a concrete input. -/
theorem stable_tie_break_witness :
    tieOrdered (sortOrd keyLe (jwEntries ["users", "orders"] "user")) :=
  (stable_tie_break ["users", "orders"] "user").1

/-- Claim C9: `rank` is deterministic — two calls with identical
candidate list, pattern, limit and mode produce identical output; the
engine is a pure function of its inputs (mutation of the candidate list
or cross-call state has no counterpart in this embedding, which models
the spec's stateless contract). -/
theorem rank_deterministic :
    ∀ (c1 : List String) (p1 : String) (n1 : Nat) (m1 : SearchMode)
      (c2 : List String) (p2 : String) (n2 : Nat) (m2 : SearchMode),
      c1 = c2 → p1 = p2 → n1 = n2 → m1 = m2 →
      rank c1 p1 n1 m1 = rank c2 p2 n2 m2 := by
  intro c1 p1 n1 m1 c2 p2 n2 m2 h1 h2 h3 h4
  subst h1; subst h2; subst h3; subst h4
  rfl

/-- Witness for claim C9 at a concrete input. -/
theorem rank_deterministic_witness :
    rank ["users"] "u" 1 SearchMode.bm25 = rank ["users"] "u" 1 SearchMode.bm25 :=
  rank_deterministic ["users"] "u" 1 SearchMode.bm25 ["users"] "u" 1 SearchMode.bm25
    rfl rfl rfl rfl

/-- Claim C10: in the tool layer every exception caught inside
`search_tables`/`search_endpoints` is re-raised as a `ConnectionError`
(the model's only outward error type), and the "Invalid regex pattern"
diagnostic is selected exactly when the mode is regex and the lower-cased
exception text contains the substring `pattern`. -/
theorem tool_layer_error_mapping :
    ∀ (mode : SearchMode) (url pat emsg : String),
      (∃ m, search_tables (Except.error emsg) mode url pat = Except.error ⟨m⟩) ∧
      (∃ m, search_endpoints (Except.error emsg) mode url pat = Except.error ⟨m⟩) ∧
      (classify_search_exception mode emsg = SearchDiagnostic.invalidRegex ↔
        (mode = SearchMode.regex ∧ ContainsSub "pattern".data (lowerChars emsg.data))) := by
  intro mode url pat emsg
  refine ⟨⟨_, rfl⟩, ⟨_, rfl⟩, ?_⟩
  rw [classify_search_exception]
  by_cases hcond :
      (hasSubB "pattern".data (lowerChars emsg.data) && (mode == SearchMode.regex)) = true
  · rw [if_pos hcond]
    simp only [Bool.and_eq_true, beq_iff_eq] at hcond
    simp only [true_iff]
    exact ⟨hcond.2, hasSubB_iff.mp hcond.1⟩
  · rw [if_neg hcond]
    constructor
    · intro h
      split_ifs at h
    · rintro ⟨hm, hsub⟩
      refine absurd ?_ hcond
      rw [Bool.and_eq_true, beq_iff_eq]
      exact ⟨hasSubB_iff.mpr hsub, hm⟩

/-- Witness for claim C10 at a concrete input. -/
theorem tool_layer_error_mapping_witness :
    ∃ m, search_tables (Except.error "Invalid pattern: (") SearchMode.regex
      "sqlite:///db" "(" = Except.error ⟨m⟩ :=
  (tool_layer_error_mapping SearchMode.regex "sqlite:///db" "(" "Invalid pattern: (").1

end Toolfront
